import Mathlib

/- A shallow embedding of the event-location subsystem of gdb
   (file gdb/location.c): the data model for stop-event locations
   (probe, linespec, address, explicit), the explicit-location lexers
   and parser, the top-level dispatcher and the string rendering.

   C strings are modelled as lists of characters: the contents of a
   NUL-terminated string without the terminator (no interior NUL).
   Pointers into a string become indices or suffix lists; functions
   that advance a cursor return the consumed token together with the
   remaining suffix.  Collaborator functions that live outside
   location.c (linespec.c, cli-utils, probes, languages) are modelled
   from the specification and are marked as such. -/

deriving instance DecidableEq for Except

namespace GdbLoc

/-- C strings, modelled as lists of characters. -/
abbrev Str := List Char

/-- C isspace in the C locale: space, tab, newline, vertical tab, form feed,
carriage return. -/
def c_isspace (c : Char) : Bool := c.toNat = 32 || (9 ≤ c.toNat && c.toNat ≤ 13)

/-- C isdigit. -/
def c_isdigit (c : Char) : Bool := 48 ≤ c.toNat && c.toNat ≤ 57

/-- C isalpha in the C locale: ASCII letters. -/
def c_isalpha (c : Char) : Bool :=
  (65 ≤ c.toNat && c.toNat ≤ 90) || (97 ≤ c.toNat && c.toNat ≤ 122)

/-- C isalnum in the C locale. -/
def c_isalnum (c : Char) : Bool := c_isalpha c || c_isdigit c

/-- The character at index i, or none past the end (reading the NUL). -/
def char_at (s : Str) (i : Nat) : Option Char := s.get? i

/-- Modelled from the spec: skip_spaces (cli-utils, not among the provided
sources) advances the cursor past leading whitespace. -/
def skip_spaces (s : Str) : Str := s.dropWhile c_isspace

/-- Modelled from the spec: remove_trailing_whitespace (cli-utils, not among
the provided sources) moves the end pointer back over trailing whitespace;
applied to a whole string it drops the trailing whitespace. -/
def remove_trailing_whitespace (s : Str) : Str :=
  (s.reverse.dropWhile c_isspace).reverse

/-- Fully trimmed form of a string (no leading and no trailing whitespace);
used to state the spec's claims about stored linespec strings. -/
def trim_both (s : Str) : Str := (remove_trailing_whitespace s).dropWhile c_isspace

/-- The source languages distinguished by the location lexers. -/
inductive Language
  | cplus
  | ada
  | other
deriving DecidableEq

/-- Modelled from the spec: the quote characters of the linespec language
(get_gdb_linespec_parser_quote_characters, linespec.c, not among the provided
sources): double and single quote. -/
def linespec_quote_characters : Str := ['"', '\'']

/-- Modelled from the spec: the linespec keyword table (linespec.c, not among
the provided sources).  gdb recognizes "if", "thread", "task" (among others)
as linespec keywords. -/
def linespec_keywords : List Str := ["if".toList, "thread".toList, "task".toList]

/-- A single keyword matches at a position when it is a prefix of the text there
and is followed by whitespace. -/
def kwMatch (kw : Str) (s : Str) : Bool :=
  kw.isPrefixOf s &&
    (match s.drop kw.length with
     | [] => false
     | c :: _ => c_isspace c)

/-- Modelled from the spec: linespec_lexer_lex_keyword (linespec.c, not among
the provided sources) tests whether the text at the given position begins with
a recognized linespec keyword. -/
def linespec_lexer_lex_keyword (s : Str) : Bool :=
  linespec_keywords.any (fun kw => kwMatch kw s)

/-- The C++ operator keyword CP_OPERATOR_STR (cp-support.h); its length is
CP_OPERATOR_LEN = 8. -/
def cp_operator_str : Str := "operator".toList

/-- Modelled from the spec: the Ada operator-name spellings recognized by
is_ada_operator (not among the provided sources); double-quoted operator
symbols such as "<". -/
def ada_operators : List Str :=
  ["\"<\"".toList, "\">\"".toList, "\"=\"".toList, "\"+\"".toList, "\"-\"".toList]

/-- Modelled from the spec: is_ada_operator tests whether the text starts with
an Ada operator-name spelling. -/
def is_ada_operator (s : Str) : Bool := ada_operators.any (fun o => o.isPrefixOf s)

/-- Modelled from the spec: the probe linespec prefixes accepted by
probe_linespec_to_static_ops (probe.c, not among the provided sources); all
begin with "-p", which is why "-p" is reserved at the explicit-location
entry. -/
def probe_prefixes : List Str := ["-probe".toList, "-pstap".toList, "-pdtrace".toList]

/-- Modelled from the spec: probe_linespec_to_static_ops succeeds exactly when
the text begins with a probe linespec prefix. -/
def probe_linespec_matches (s : Str) : Bool :=
  probe_prefixes.any (fun p => p.isPrefixOf s)

/-- The decimal digit characters. -/
def digitChar (d : Nat) : Char := Char.ofNat (48 + d)

/-- Hexadecimal digit characters. -/
def hexDigitChar (d : Nat) : Char :=
  if d < 10 then Char.ofNat (48 + d) else Char.ofNat (87 + d)

/-- Decimal rendering of a natural number, as printed by printf %d for
non-negative values. -/
def natToStr (n : Nat) : Str :=
  if n = 0 then ['0'] else ((Nat.digits 10 n).map digitChar).reverse

/-- Modelled from the spec: the value computed by atoi on a token (value of the
leading digit run, 0 when there is none). -/
def atoiNat (s : Str) : Nat :=
  (s.takeWhile c_isdigit).foldl (fun a c => 10 * a + (c.toNat - 48)) 0

/-- The sign of an explicit location line offset (enum line_offset sign). -/
inductive LineOffsetSign
  | unknown
  | none_
  | plus
  | minus
deriving DecidableEq

/-- struct line_offset: magnitude and sign. -/
structure LineOffset where
  offset : Nat
  sign : LineOffsetSign
deriving DecidableEq

/-- Modelled from the spec: linespec_parse_line_offset (linespec.c, not among
the provided sources) turns a signed-offset token into sign and magnitude:
sign absent means NONE, a + or - prefix means PLUS or MINUS. -/
def linespec_parse_line_offset (s : Str) : LineOffset :=
  match s with
  | '+' :: r => ⟨atoiNat r, .plus⟩
  | '-' :: r => ⟨atoiNat r, .minus⟩
  | _ => ⟨atoiNat s, .none_⟩

/-- Characters an address expression may consist of in the model. -/
def isExprChar (c : Char) : Bool := c_isalnum c || c = '_'

/-- Modelled from the spec: linespec_expression_to_pc parses a leading
address expression (the * and the expression text) and reports the numeric
value together with the exactly consumed length.  The value itself is opaque
to this subsystem (rendering of parsed addresses reuses the consumed text),
so the model evaluates digit runs with atoi and maps symbols to 0. -/
def linespec_expression_to_pc (s : Str) : Nat × Nat :=
  match s with
  | '*' :: r =>
    let e := r.takeWhile isExprChar
    (atoiNat e, 1 + e.length)
  | _ => (0, 0)

/-- Modelled from the spec: core_addr_to_string renders an address value in
hexadecimal with a 0x prefix. -/
def core_addr_to_string (n : Nat) : Str :=
  '0' :: 'x' :: (if n = 0 then ['0'] else ((Nat.digits 16 n).map hexDigitChar).reverse)

/-- Helper for the modelled linespec tokenizer: number of characters consumed
before the first keyword standing at the start or right after whitespace.  The
boolean records whether the current position is such a boundary. -/
def lex_to_end_go : Str → Bool → Nat
  | [], _ => 0
  | c :: r, atBoundary =>
    if atBoundary && linespec_lexer_lex_keyword (c :: r) then 0
    else 1 + lex_to_end_go r (c_isspace c)

/-- Modelled from the spec: linespec_lex_to_end (linespec.c, not among the
provided sources) consumes tokens, whitespace included, up to the first
linespec keyword at a whitespace-delimited position, or to end of input;
reports the consumed length. -/
def linespec_lex_to_end (s : Str) : Nat := lex_to_end_go s true

/-- find_end_quote (location.c): scan for the first occurrence of the end
quote that is outside of all single- and double-quoted substrings; the
accumulator holds the quote character currently open, and inside quotes a
backslash escapes the following character. -/
def find_end_quote_go (endq : Char) : Str → Option Char → Nat → Option Nat
  | [], _, _ => none
  | c :: r, some q, i =>
    if c = q then find_end_quote_go endq r none (i + 1)
    else if c = '\\' then
      match r with
      | [] => none
      | _ :: r2 => find_end_quote_go endq r2 (some q) (i + 2)
    else find_end_quote_go endq r (some q) (i + 1)
  | c :: r, none, i =>
    if c = endq then some i
    else if c = '"' ∨ c = '\'' then find_end_quote_go endq r (some c) (i + 1)
    else find_end_quote_go endq r none (i + 1)

/-- find_end_quote (location.c): index of the end quote, or none. -/
def find_end_quote (s : Str) (endq : Char) : Option Nat :=
  find_end_quote_go endq s none 0

/-- Modelled from the spec (quoting-aware scanner, 4.1): find_toplevel_char
(linespec.c, not among the provided sources): index of the first occurrence of
the delimiter outside single/double quotes; inside a quoted region a backslash
escapes the next character and other quote kinds are not special. -/
def find_toplevel_char_go (tgt : Char) : Str → Option Char → Nat → Option Nat
  | [], _, _ => none
  | c :: r, some q, i =>
    if c = q then find_toplevel_char_go tgt r none (i + 1)
    else if c = '\\' then
      match r with
      | [] => none
      | _ :: r2 => find_toplevel_char_go tgt r2 (some q) (i + 2)
    else find_toplevel_char_go tgt r (some q) (i + 1)
  | c :: r, none, i =>
    if c = tgt then some i
    else if c = '"' ∨ c = '\'' then find_toplevel_char_go tgt r (some c) (i + 1)
    else find_toplevel_char_go tgt r none (i + 1)

/-- Modelled from the spec: find_toplevel_char, see find_toplevel_char_go. -/
def find_toplevel_char (s : Str) (tgt : Char) : Option Nat :=
  find_toplevel_char_go tgt s none 0

/-- The parse errors of the subsystem (error () calls in location.c).
nullDeref marks the undefined behaviour of strlen on a null token pointer in
string_to_explicit_location. -/
inductive LocErr
  | unmatchedQuote
  | invalidArg
  | missingArg
  | incompleteExplicit
  | nullDeref
deriving DecidableEq

/-- The bare-symbol loop of explicit_location_lex_one: stops at end of string,
a comma, whitespace, or a linespec keyword at the next position; a C++
operator spelling is consumed as one unit (CP_OPERATOR_LEN characters plus
the one consumed by the loop increment).  Returns the number of characters
consumed; the fuel is at least the input length at every use. -/
def lex_one_sym_go (lang : Language) : Nat → Str → Nat
  | 0, _ => 0
  | _ + 1, [] => 0
  | fuel + 1, c :: r =>
    if c = ',' then 0
    else if c_isspace c || linespec_lexer_lex_keyword r then 0
    else if lang = .cplus ∧ cp_operator_str.isPrefixOf (c :: r) then
      (cp_operator_str.length + 1) +
        lex_one_sym_go lang fuel ((c :: r).drop (cp_operator_str.length + 1))
    else 1 + lex_one_sym_go lang fuel r

/-- explicit_location_lex_one (location.c): lex one option or value token.
Returns the token and the remaining input, none if nothing was lexed; raises
(strict mode only, completion = false) on an unmatched quote. -/
def explicit_location_lex_one (s : Str) (lang : Language) (completion : Bool) :
    Except LocErr (Option (Str × Str)) :=
  match s with
  | [] => .ok none
  | c :: r =>
    if c ∈ linespec_quote_characters then
      match find_end_quote r c with
      | none =>
        if completion = false then .error .unmatchedQuote
        else .ok (some (r, []))
      | some i => .ok (some (r.take i, r.drop (i + 1)))
    else if c = '-' ∨ c = '+' then
      let tok := (c :: r).takeWhile (fun x => !(x == ',') && !(c_isspace x))
      .ok (some (tok, (c :: r).drop tok.length))
    else
      let digs := (c :: r).takeWhile c_isdigit
      let rest := (c :: r).drop digs.length
      match rest with
      | [] => .ok (some (digs, rest))
      | x :: _ =>
        if c_isspace x || x == ',' then .ok (some (digs, rest))
        else
          let n := lex_one_sym_go lang (c :: r).length (c :: r)
          if 0 < n then .ok (some ((c :: r).take n, (c :: r).drop n))
          else .ok none

/-- Whether the character at an index is alphanumeric or an underscore. -/
def char_at_isalnum_us (s : Str) (i : Nat) : Bool :=
  match char_at s i with
  | some c => c_isalnum c || c == '_'
  | none => false

/-- Whether the character at an index exists and is whitespace. -/
def char_at_isspace (s : Str) (i : Nat) : Bool :=
  match char_at s i with
  | some c => c_isspace c
  | none => false

/-- Walk an index back over spaces, never before the start index a
(the backward scan of is_cp_operator). -/
def back_skip_space (s : Str) (a : Nat) : Nat → Nat
  | 0 => 0
  | p + 1 =>
    if decide (a < p + 1) && char_at_isspace s p then back_skip_space s a p
    else p + 1

/-- is_cp_operator (location.c), with pointers replaced by indices into s:
the delimiter at index b is a false positive when, walking back over
whitespace, the preceding CP_OPERATOR_LEN characters spell operator and the
character before that (if any) is not alphanumeric or underscore. -/
def is_cp_operator (s : Str) (a : Nat) (b : Option Nat) : Bool :=
  match b with
  | none => false
  | some b =>
    if cp_operator_str.length + a ≤ b then
      let p := back_skip_space s a b
      if cp_operator_str.length + a ≤ p then
        let p2 := p - cp_operator_str.length
        (((s.drop p2).take cp_operator_str.length) == cp_operator_str) &&
          (p2 == a || !(char_at_isalnum_us s (p2 - 1)))
      else false
    else false

/-- skip_op_false_positives (location.c): keep re-searching for the delimiter
while the found occurrence is part of a C++ operator spelling; the double
hyphen operator skips both hyphens.  Indices are absolute into s; the fuel is
more than the length of s at every use. -/
def skip_op_false_positives_go (s : Str) (tgt : Char) :
    Nat → Nat → Option Nat → Option Nat
  | 0, _, found => found
  | _ + 1, _, none => none
  | fuel + 1, a, some b =>
    if is_cp_operator s a (some b) then
      let a2 :=
        if (char_at s b == some '-') && (char_at s (b + 1) == some '-') then b + 2
        else b + 1
      skip_op_false_positives_go s tgt fuel a2
        ((find_toplevel_char (s.drop a2) tgt).map (fun j => a2 + j))
    else some b

/-- skip_op_false_positives (location.c), entry point: the scan starts at
index 0 of s. -/
def skip_op_false_positives (s : Str) (found : Option Nat) (tgt : Char) :
    Option Nat :=
  skip_op_false_positives_go s tgt (s.length + 1) 0 found

/-- first_of (location.c): the earlier of two optional positions. -/
def first_of (a b : Option Nat) : Option Nat :=
  match a, b with
  | none, b => b
  | some x, none => some x
  | some x, some y => if y < x then some y else some x

/-- The whitespace scan of explicit_location_lex_one_function: find the first
space whose following text is a linespec keyword; absolute index of that
space, or none.  The fuel is more than the length of the scanned suffix at
every use. -/
def func_ws_scan : Nat → Str → Nat → Option Nat
  | 0, _, _ => none
  | fuel + 1, t, base =>
    match find_toplevel_char t ' ' with
    | none => none
    | some i =>
      if linespec_lexer_lex_keyword (t.drop (i + 1)) then some (base + i)
      else func_ws_scan fuel (t.drop (i + 1)) (base + i + 1)

/-- Trim an end index back over literal spaces (the trailing trim of
explicit_location_lex_one_function). -/
def trim_trailing_space_idx (s : Str) : Nat → Nat
  | 0 => 0
  | i + 1 => if char_at s i == some ' ' then trim_trailing_space_idx s i else i + 1

/-- The end position the function-name lexer computes in its unquoted case:
the earlier of the first genuine comma or hyphen delimiter (operator false
positives skipped) and the first space preceding a linespec keyword, with
end of string as fallback, trimmed back over trailing spaces. -/
def lex_one_function_end (s : Str) : Nat :=
  let comma := find_toplevel_char s ','
  let hyphen :=
    if s.head? = some '-' then (find_toplevel_char s.tail '-').map (· + 1)
    else find_toplevel_char s '-'
  let comma2 := skip_op_false_positives s comma ','
  let hyphen2 := skip_op_false_positives s hyphen '-'
  let e1 := first_of hyphen2 comma2
  let ws := func_ws_scan (s.length + 1) s 0
  let e2 :=
    match ws with
    | some w => first_of e1 (some (w + 1))
    | none => e1
  let endIdx :=
    match e2 with
    | some e => e
    | none => s.length
  trim_trailing_space_idx s endIdx

/-- explicit_location_lex_one_function (location.c): lex a function name.
Quoted tokens are handled like in explicit_location_lex_one unless the
language is Ada and the double-quoted text is an Ada operator name; otherwise
the token ends at lex_one_function_end. -/
def explicit_location_lex_one_function (s : Str) (lang : Language)
    (completion : Bool) : Except LocErr (Option (Str × Str)) :=
  match s with
  | [] => .ok none
  | q :: r =>
    if q ∈ linespec_quote_characters ∧
        ¬(lang = .ada ∧ q = '"' ∧ is_ada_operator (q :: r)) then
      match find_toplevel_char r q with
      | none =>
        if completion = false then .error .unmatchedQuote
        else .ok (some (r, []))
      | some i => .ok (some (r.take i, r.drop (i + 1)))
    else
      let endIdx2 := lex_one_function_end (q :: r)
      if 0 < endIdx2 then .ok (some ((q :: r).take endIdx2, (q :: r).drop endIdx2))
      else .ok none

/-- symbol_name_match_type, restricted to the two values used by locations. -/
inductive MatchType
  | wild
  | full
deriving DecidableEq

/-- struct explicit_location: the discrete fields of an explicit location. -/
structure ExplicitLoc where
  source_filename : Option Str
  function_name : Option Str
  label_name : Option Str
  line_offset : LineOffset
  func_name_match_type : MatchType
deriving DecidableEq

/-- initialize_explicit_location (location.c): all fields cleared, the line
offset sign set to UNKNOWN and the match type to WILD. -/
def initialize_explicit_location : ExplicitLoc :=
  { source_filename := none
    function_name := none
    label_name := none
    line_offset := ⟨0, .unknown⟩
    func_name_match_type := .wild }

/-- event_location_explicit empty_p (location.c): no source file, function,
label, and an unknown line offset sign. -/
def explicit_empty_p (l : ExplicitLoc) : Bool :=
  l.source_filename.isNone && l.function_name.isNone && l.label_name.isNone &&
    (l.line_offset.sign == .unknown)

/-- The option-name table of string_to_explicit_location. -/
def opt_source : Str := ['-', 's', 'o', 'u', 'r', 'c', 'e']

/-- See opt_source. -/
def opt_function : Str := ['-', 'f', 'u', 'n', 'c', 't', 'i', 'o', 'n']

/-- See opt_source. -/
def opt_qualified : Str := ['-', 'q', 'u', 'a', 'l', 'i', 'f', 'i', 'e', 'd']

/-- See opt_source. -/
def opt_line : Str := ['-', 'l', 'i', 'n', 'e']

/-- See opt_source. -/
def opt_label : Str := ['-', 'l', 'a', 'b', 'e', 'l']

/-- Whether an option token compares equal to the given full option name under
strncmp with the token's length (this is what enables abbreviations). -/
def optMatch (opt : Str) (full : Str) : Bool := full.take opt.length == opt

/-- Whether a token looks like an option string: it starts with a hyphen whose
following character (possibly the terminating NUL) is not a digit. -/
def optInvalidShape (opt : Str) : Bool :=
  match opt with
  | '-' :: [] => true
  | '-' :: c :: _ => !(c_isdigit c)
  | _ => false

/-- The outcome of one iteration of the option/argument loop of
string_to_explicit_location. -/
inductive StepRes
  | done (loc : ExplicitLoc) (rest : Str)
  | cont (loc : ExplicitLoc) (rest : Str)
  | err (e : LocErr)
deriving DecidableEq

/-- One iteration of the option/argument loop of string_to_explicit_location
(location.c).  The loop stops at end of input, at a comma, at a linespec
keyword, or (with rewind) at a token that does not look like an option; the
option token is lexed with completion info NULL (as in the source), matched
by strncmp prefix against -source, -function, -qualified, -line, -label, and
the argument is lexed with the corresponding lexer.  A null option token
makes the following strlen call undefined behaviour, modelled as the
nullDeref error. -/
def stel_step (lang : Language) (completion : Bool) (s : Str) (loc : ExplicitLoc) :
    StepRes :=
  if s.isEmpty || (s.head? == some ',') then .done loc s
  else if linespec_lexer_lex_keyword s then .done loc s
  else
    match explicit_location_lex_one s lang false with
    | .error e => .err e
    | .ok none => .err .nullDeref
    | .ok (some (opt, s1)) =>
      let s2 := skip_spaces s1
      if optMatch opt opt_source then
        match explicit_location_lex_one s2 lang completion with
        | .error e => .err e
        | .ok r =>
          let loc2 := { loc with source_filename := r.map (fun p => p.1) }
          let s3 := match r with | some p => p.2 | none => s2
          let s4 := skip_spaces s3
          if r.isNone && !completion then .err .missingArg else .cont loc2 s4
      else if optMatch opt opt_function then
        match explicit_location_lex_one_function s2 lang completion with
        | .error e => .err e
        | .ok r =>
          let loc2 := { loc with function_name := r.map (fun p => p.1) }
          let s3 := match r with | some p => p.2 | none => s2
          let s4 := skip_spaces s3
          if r.isNone && !completion then .err .missingArg else .cont loc2 s4
      else if optMatch opt opt_qualified then
        let loc2 := { loc with func_name_match_type := .full }
        .cont loc2 (skip_spaces s2)
      else if optMatch opt opt_line then
        match explicit_location_lex_one s2 lang false with
        | .error e => .err e
        | .ok r =>
          match r with
          | some p =>
            let loc2 := { loc with line_offset := linespec_parse_line_offset p.1 }
            .cont loc2 (skip_spaces p.2)
          | none =>
            let s4 := skip_spaces s2
            if !completion then .err .missingArg else .cont loc (skip_spaces s4)
      else if optMatch opt opt_label then
        match explicit_location_lex_one s2 lang completion with
        | .error e => .err e
        | .ok r =>
          let loc2 := { loc with label_name := r.map (fun p => p.1) }
          let s3 := match r with | some p => p.2 | none => s2
          let s4 := skip_spaces s3
          if r.isNone && !completion then .err .missingArg else .cont loc2 s4
      else if optInvalidShape opt then
        if !completion then .err .invalidArg
        else .cont loc (skip_spaces s2)
      else .done loc s

/-- The option/argument loop of string_to_explicit_location, iterated via
stel_step.  The fuel is more than the input length at every use; a cont step
always consumes input, so the fuel never runs out (the fuel-zero result is
never reached from string_to_explicit_location). -/
def stel_loop (lang : Language) (completion : Bool) :
    Nat → Str → ExplicitLoc → Except LocErr (ExplicitLoc × Str)
  | 0, s, loc => .ok (loc, s)
  | fuel + 1, s, loc =>
    match stel_step lang completion s loc with
    | .done l r => .ok (l, r)
    | .err e => .error e
    | .cont l s2 => stel_loop lang completion fuel s2 l

/-- The entry guard of string_to_explicit_location (location.c): the input
must begin with a hyphen followed by a letter, and "-p" is reserved for probe
locations. -/
def stel_guard (s : Str) : Bool :=
  match s with
  | c :: d :: _ => (c == '-') && (c_isalpha d && !(d == 'p'))
  | _ => false

/-- string_to_explicit_location (location.c): guard, option/argument loop,
then the incomplete-explicit-location validation (a source filename with no
function, label or known line offset is an error in strict mode).  Returns
none when the input does not look like an explicit location, otherwise the
parsed explicit location and the remaining input. -/
def string_to_explicit_location (s : Str) (lang : Language) (completion : Bool) :
    Except LocErr (Option (ExplicitLoc × Str)) :=
  if !(stel_guard s) then .ok none
  else
    match stel_loop lang completion (s.length + 1) s initialize_explicit_location with
    | .error e => .error e
    | .ok (loc, rest) =>
      if loc.source_filename.isSome && loc.function_name.isNone &&
          loc.label_name.isNone && (loc.line_offset.sign == .unknown) &&
          !completion then
        .error .incompleteExplicit
      else .ok (some (loc, rest))

/-- struct linespec_location: match type and optional spec string. -/
structure LinespecLocation where
  match_type : MatchType
  spec_string : Option Str
deriving DecidableEq

/-- The variant payload of an event location.  The probe payload is its
as_string (exactly as in the source, where event_location_probe stores the
probe text in the base-class string); the address payload is the resolved
address value. -/
inductive EventPayload
  | probe
  | linespec (ls : LinespecLocation)
  | address (addr : Nat)
  | explicitL (el : ExplicitLoc)
deriving DecidableEq

/-- struct event_location: a variant payload together with the (cached)
string representation as_string. -/
structure EventLocation where
  payload : EventPayload
  as_string : Str
deriving DecidableEq

/-- explicit_to_string_internal (location.c): render the present fields of an
explicit location in the fixed order source, function, label, line offset,
joined by a space (explicit form) or a colon (linespec form); in explicit
form each field is preceded by its option name, and a FULL match type adds
-qualified before the function name in both forms. -/
def explicit_to_string_internal (as_linespec : Bool) (l : ExplicitLoc) : Str :=
  let space : Char := if as_linespec then ':' else ' '
  let b1 : Str :=
    match l.source_filename with
    | some src => (if as_linespec then [] else "-source ".toList) ++ src
    | none => []
  let n1 : Bool := l.source_filename.isSome
  let b2 : Str :=
    match l.function_name with
    | some fn =>
      (if n1 then [space] else []) ++
        (if l.func_name_match_type = .full then "-qualified ".toList else []) ++
        (if as_linespec then [] else "-function ".toList) ++ fn
    | none => []
  let n2 : Bool := n1 || l.function_name.isSome
  let b3 : Str :=
    match l.label_name with
    | some lb =>
      (if n2 then [space] else []) ++
        (if as_linespec then [] else "-label ".toList) ++ lb
    | none => []
  let n3 : Bool := n2 || l.label_name.isSome
  let b4 : Str :=
    if l.line_offset.sign = .unknown then []
    else
      (if n3 then [space] else []) ++
        (if as_linespec then [] else "-line ".toList) ++
        (match l.line_offset.sign with
         | .none_ => []
         | .plus => ['+']
         | .minus => ['-']
         | .unknown => []) ++
        natToStr l.line_offset.offset
  b1 ++ b2 ++ b3 ++ b4

/-- explicit_location_to_string (location.c): explicit rendering form. -/
def explicit_location_to_string (l : ExplicitLoc) : Str :=
  explicit_to_string_internal false l

/-- explicit_location_to_linespec (location.c): linespec-compatible form. -/
def explicit_location_to_linespec (l : ExplicitLoc) : Str :=
  explicit_to_string_internal true l

/-- The compute_string virtual of each event_location variant (location.c):
probe returns the stored string (it is only ever called when that string is
empty), linespec renders its spec string with a -qualified prefix for a FULL
match type, address renders * followed by the canonical address text, and
explicit renders the explicit form. -/
def compute_string (L : EventLocation) : Str :=
  match L.payload with
  | .probe => L.as_string
  | .linespec ls =>
    match ls.spec_string with
    | some sp =>
      if ls.match_type = .full then "-qualified ".toList ++ sp else sp
    | none => []
  | .address addr => '*' :: core_addr_to_string addr
  | .explicitL el => explicit_location_to_string el

/-- event_location to_string (location.c) as a state transformer on the
cached string: if the cache is empty it is filled from compute_string; an
empty result is reported as no string (nullptr).  The boolean records
whether compute_string was invoked by this call. -/
def to_string_mem (L : EventLocation) : Option Str × EventLocation × Bool :=
  if L.as_string = [] then
    let c := compute_string L
    ((if c = [] then none else some c), { L with as_string := c }, true)
  else (some L.as_string, L, false)

/-- The pure rendering of a location: the cached string if present, otherwise
the computed representation (the string to_string exposes). -/
def rendered (L : EventLocation) : Str :=
  if L.as_string = [] then compute_string L else L.as_string

/-- The event_location_linespec constructor (location.c) on a non-null input:
consume with the linespec tokenizer, strip trailing whitespace from the
consumed span, and store it as the spec string when non-empty.  Returns the
constructed linespec payload and the remaining input. -/
def new_linespec_location (s : Str) (mt : MatchType) : LinespecLocation × Str :=
  let k := linespec_lex_to_end s
  let p := remove_trailing_whitespace (s.take k)
  ({ match_type := mt, spec_string := if p = [] then none else some p }, s.drop k)

/-- string_to_event_location_basic (location.c): try a probe specification
(consuming all input), then an address (input starting with *, consuming the
expression span), else a linespec. -/
def string_to_event_location_basic (s : Str) (lang : Language) (mt : MatchType) :
    EventLocation × Str :=
  if probe_linespec_matches s then
    ({ payload := .probe, as_string := s }, [])
  else if s.head? = some '*' then
    let pr := linespec_expression_to_pc s
    ({ payload := .address pr.1, as_string := s.take pr.2 }, s.drop pr.2)
  else
    let pr := new_linespec_location s mt
    ({ payload := .linespec pr.1, as_string := [] }, pr.2)

/-- string_to_event_location (location.c): try an explicit location first
(with completion info NULL); propagate its errors; a non-empty result is
returned with the cursor advanced; an empty result (only flags such as
-qualified) is discarded but its match type is carried into basic
resolution of the rest of the input. -/
def string_to_event_location (s : Str) (lang : Language) (mt : MatchType) :
    Except LocErr (EventLocation × Str) :=
  match string_to_explicit_location s lang false with
  | .error e => .error e
  | .ok (some (loc, rest)) =>
    if !(explicit_empty_p loc) then
      .ok ({ payload := .explicitL loc, as_string := [] }, rest)
    else .ok (string_to_event_location_basic rest lang loc.func_name_match_type)
  | .ok none => .ok (string_to_event_location_basic s lang mt)

/-- Parse and re-render: the rendering of the location constructed from the
input (the round-trip composition of the spec's persistence property). -/
def reRender (s : Str) (lang : Language) : Except LocErr Str :=
  (string_to_event_location s lang .wild).map (fun p => rendered p.1)

/-- An input whose first character, if any, is not whitespace (the option
loop of string_to_explicit_location only ever runs at such positions). -/
def headOk (s : Str) : Prop := ∀ c r, s = c :: r → c_isspace c = false

/-- Characters that survive every location lexer unchanged: alphanumerics,
underscore and dot (enough for file, function and label names). -/
def plainChar (c : Char) : Bool := c_isalnum c || c == '_' || c == '.'

/-- A token with no embedded data loss: non-empty, made of plain characters,
with no proper suffix that is a linespec keyword (which the value lexer's
keyword lookahead would cut) and not ending in the C++ operator keyword
(which the function lexer's operator disambiguation would misread). -/
def goodToken (t : Str) : Bool :=
  !t.isEmpty && t.all plainChar &&
    (t.tails.all (fun u => (u == t) || !(linespec_keywords.contains u))) &&
    !(t.tails.contains cp_operator_str)

/-- A linespec spec string with no embedded data loss: non-empty, trimmed,
its first character opens none of the other syntaxes, the linespec tokenizer
consumes it whole, and the option lexer reads a clean non-option first token
from it (so the explicit-location loop stops and rewinds on it). -/
def linespecWF (lang : Language) (t : Str) : Bool :=
  !t.isEmpty &&
    (match t with
     | c :: _ =>
       !(c == '-') && !(c == '*') && !(c == ',') && !(c == '"') &&
         !(c == '\'') && !(c_isspace c)
     | [] => false) &&
    (remove_trailing_whitespace t == t) &&
    (linespec_lex_to_end t == t.length) &&
    (match explicit_location_lex_one t lang false with
     | .ok (some (tok, _)) => !tok.isEmpty && !(tok.head? == some '-')
     | _ => false)

/-- An explicit location with no embedded data loss: plain tokens in every
present field, not empty, satisfying the source-filename validation (so the
re-parse does not reject it), and carrying a FULL match type only together
with a function name (the -qualified flag is only rendered before
-function) and no stray offset magnitude under an unknown sign (an unknown
sign renders nothing, so a magnitude there would not persist). -/
def explicitWF (l : ExplicitLoc) : Bool :=
  (match l.source_filename with | some t => goodToken t | none => true) &&
    (match l.function_name with | some t => goodToken t | none => true) &&
    (match l.label_name with | some t => goodToken t | none => true) &&
    !(explicit_empty_p l) &&
    (!(l.source_filename.isSome) ||
      (l.function_name.isSome || l.label_name.isSome ||
        !(l.line_offset.sign == .unknown))) &&
    (!(l.func_name_match_type == MatchType.full) || l.function_name.isSome) &&
    (!(l.line_offset.sign == .unknown) || (l.line_offset.offset == 0))

/-- The characters of a rendered line-offset sign. -/
def lineSignStr (sg : LineOffsetSign) : Str :=
  match sg with
  | .plus => ['+']
  | .minus => ['-']
  | .none_ => []
  | .unknown => []

/-- Join a list of strings with a single separator character. -/
def joinSep (c : Char) : List Str → Str
  | [] => []
  | [x] => x
  | x :: xs => x ++ c :: joinSep c xs

/-- The rendered fields of an explicit location as the spec describes them:
the present fields in the fixed order source, function, label, line; in
explicit form each is preceded by its own option name, which the
linespec-compatible form drops; a FULL match type puts -qualified before the
function name. -/
def explicit_fields_spec (as_linespec : Bool) (l : ExplicitLoc) : List Str :=
  (match l.source_filename with
   | some src => [(if as_linespec then [] else "-source ".toList) ++ src]
   | none => []) ++
  (match l.function_name with
   | some fn =>
     [(if l.func_name_match_type = .full then "-qualified ".toList else []) ++
       (if as_linespec then [] else "-function ".toList) ++ fn]
   | none => []) ++
  (match l.label_name with
   | some lb => [(if as_linespec then [] else "-label ".toList) ++ lb]
   | none => []) ++
  (if l.line_offset.sign = .unknown then []
   else
     [(if as_linespec then [] else "-line ".toList) ++
       lineSignStr l.line_offset.sign ++ natToStr l.line_offset.offset])

/-- One rendered field of an explicit location, for the round-trip proof:
a source filename, a function name (with or without the -qualified flag),
a label name, or a line offset. -/
inductive RPiece
  | src (s : Str)
  | fn (full : Bool) (f : Str)
  | lbl (l : Str)
  | lin (sg : LineOffsetSign) (k : Nat)
deriving DecidableEq

/-- The rendered text of one explicit-location field. -/
def pieceStr : RPiece → Str
  | .src s => "-source ".toList ++ s
  | .fn full f =>
    (if full then "-qualified ".toList else []) ++ "-function ".toList ++ f
  | .lbl l => "-label ".toList ++ l
  | .lin sg k => "-line ".toList ++ lineSignStr sg ++ natToStr k

/-- The field update a piece performs on the explicit location being built. -/
def applyPiece (loc : ExplicitLoc) : RPiece → ExplicitLoc
  | .src s => { loc with source_filename := some s }
  | .fn full f =>
    { loc with
        function_name := some f
        func_name_match_type := if full then .full else loc.func_name_match_type }
  | .lbl l => { loc with label_name := some l }
  | .lin sg k => { loc with line_offset := ⟨k, sg⟩ }

/-- Apply a sequence of field updates in order. -/
def applyPieces (loc : ExplicitLoc) : List RPiece → ExplicitLoc
  | [] => loc
  | p :: ps => applyPieces (applyPiece loc p) ps

/-- Well-formedness of one piece (plain token, known line-offset sign). -/
def pieceWF : RPiece → Bool
  | .src s => goodToken s
  | .fn _ f => goodToken f
  | .lbl l => goodToken l
  | .lin sg _ => !(sg == LineOffsetSign.unknown)

/-- The piece decomposition of an explicit location's rendering. -/
def piecesOf (l : ExplicitLoc) : List RPiece :=
  (match l.source_filename with
   | some s => [RPiece.src s]
   | none => []) ++
  (match l.function_name with
   | some f => [RPiece.fn (l.func_name_match_type = .full) f]
   | none => []) ++
  (match l.label_name with
   | some lb => [RPiece.lbl lb]
   | none => []) ++
  (if l.line_offset.sign = .unknown then []
   else [RPiece.lin l.line_offset.sign l.line_offset.offset])

/- ------------------------------------------------------------------ -/
/- Theorems.                                                          -/
/- ------------------------------------------------------------------ -/

/-- The first element a dropWhile keeps falsifies the predicate. -/
theorem dropWhile_head_false {p : Char → Bool} :
    ∀ {l : Str} {c : Char} {t : Str}, l.dropWhile p = c :: t → p c = false := by
  intro l
  induction l with
  | nil => intro c t h; simp [List.dropWhile] at h
  | cons a l ih =>
    intro c t h
    rw [List.dropWhile_cons] at h
    by_cases ha : p a = true
    · exact ih (by simpa [ha] using h)
    · have ha2 : p a = false := by simpa using ha
      simp [ha2] at h
      rw [← h.1]
      exact ha2

/-- C3: string_to_explicit_location returns no explicit location unless the
input starts with a hyphen followed by a letter, and an input starting with
"-p" always yields none (the prefix is reserved for probe syntax). -/
theorem C3_entry_guard :
    (∀ (s : Str) (lang : Language) (comp : Bool),
      (¬ ∃ c r, s = '-' :: c :: r ∧ c_isalpha c = true) →
      string_to_explicit_location s lang comp = .ok none) ∧
    (∀ (r : Str) (lang : Language) (comp : Bool),
      string_to_explicit_location ('-' :: 'p' :: r) lang comp = .ok none) := by
  constructor
  · intro s lang comp h
    have hg : stel_guard s = false := by
      match s with
      | [] => rfl
      | [c] => rfl
      | c :: d :: r =>
        by_cases hc : c = '-'
        · subst hc
          have hd : c_isalpha d = false := by
            cases hda : c_isalpha d
            · rfl
            · exact absurd ⟨d, r, rfl, hda⟩ h
          simp [stel_guard, hd]
        · simp [stel_guard, hc]
    simp [string_to_explicit_location, hg]
  · intro r lang comp
    have hg : stel_guard ('-' :: 'p' :: r) = false := by
      simp [stel_guard, c_isalpha]
    simp [string_to_explicit_location, hg]

/-- Witness for C3 at concrete inputs. -/
theorem C3_entry_guard_witness :
    string_to_explicit_location "main".toList Language.other false = .ok none ∧
    string_to_explicit_location "-pstap provider".toList Language.other false = .ok none := by
  constructor
  · exact C3_entry_guard.1 _ _ _ (by rintro ⟨c, r, h, -⟩; simp at h)
  · exact C3_entry_guard.2 "stap provider".toList Language.other false

/-- C5: a quoted token with no closing quote makes the option-value lexer and
the function-name lexer raise exactly when completion support is disabled;
with completion enabled they consume to end of string and return the
remainder after the opening quote as the token. -/
theorem C5_unmatched_quote :
    (∀ (q : Char) (r : Str) (lang : Language),
      q ∈ linespec_quote_characters → find_end_quote r q = none →
      explicit_location_lex_one (q :: r) lang false = .error .unmatchedQuote ∧
      explicit_location_lex_one (q :: r) lang true = .ok (some (r, []))) ∧
    (∀ (q : Char) (r : Str) (lang : Language),
      q ∈ linespec_quote_characters →
      ¬(lang = .ada ∧ q = '"' ∧ is_ada_operator (q :: r) = true) →
      find_toplevel_char r q = none →
      explicit_location_lex_one_function (q :: r) lang false = .error .unmatchedQuote ∧
      explicit_location_lex_one_function (q :: r) lang true = .ok (some (r, []))) := by
  constructor
  · intro q r lang hq hf
    constructor <;> simp [explicit_location_lex_one, hq, hf]
  · intro q r lang hq hada hf
    constructor <;> simp [explicit_location_lex_one_function, hq, hada, hf]

/-- Witness for C5 at a concrete unterminated quoted token. -/
theorem C5_unmatched_quote_witness :
    explicit_location_lex_one ('"' :: "abc".toList) Language.other false =
      .error .unmatchedQuote ∧
    explicit_location_lex_one_function ('\'' :: "abc".toList) Language.other true =
      .ok (some ("abc".toList, [])) := by
  refine ⟨(C5_unmatched_quote.1 '"' "abc".toList Language.other (by decide) (by decide)).1, ?_⟩
  exact (C5_unmatched_quote.2 '\'' "abc".toList Language.other (by decide)
    (by decide) (by decide)).2

/-- Counterexample to C6 as stated: for a location whose computed
representation is the empty string (here the linespec location the top-level
dispatcher builds from empty input), every to_string call invokes
compute_string again, so it is not computed at most once per object. -/
theorem C6_counterexample :
    string_to_event_location [] Language.other .wild =
      .ok ({ payload := .linespec ⟨.wild, none⟩, as_string := [] }, []) ∧
    (to_string_mem { payload := .linespec ⟨.wild, none⟩, as_string := [] }).2.2 = true ∧
    (to_string_mem
      (to_string_mem { payload := .linespec ⟨.wild, none⟩, as_string := [] }).2.1).2.2 =
      true := by decide

/-- C6 as amended: to_string is idempotent (a second call returns the same
string and leaves the cache unchanged), and when the computed representation
is non-empty the first call fixes the cache permanently so that later calls
do not recompute; an empty computed representation is cached as no string and
is recomputed (idempotently) by every call. -/
theorem C6_memoization_amended (L : EventLocation) :
    (to_string_mem ((to_string_mem L).2.1)).1 = (to_string_mem L).1 ∧
    (to_string_mem ((to_string_mem L).2.1)).2.1 = (to_string_mem L).2.1 ∧
    (compute_string L ≠ [] → (to_string_mem ((to_string_mem L).2.1)).2.2 = false) := by
  obtain ⟨pl, astr⟩ := L
  by_cases h : astr = []
  · subst h
    by_cases h2 : compute_string { payload := pl, as_string := [] } = []
    · simp [to_string_mem, h2]
    · simp [to_string_mem, h2]
  · simp [to_string_mem, h]

/-- Witness for C6's amended theorem at a probe location with a non-empty
cached string. -/
theorem C6_memoization_amended_witness :
    compute_string { payload := .probe, as_string := "-pstap x".toList } ≠ [] ∧
    (to_string_mem
      ((to_string_mem { payload := .probe, as_string := "-pstap x".toList }).2.1)).2.2 =
      false := by
  refine ⟨by decide, ?_⟩
  exact (C6_memoization_amended _).2.2 (by decide)

/-- C10: the failing input for the null-token dereference.  On
"-qualified xif k" the option loop reaches the token "xif k", which is not a
keyword, so the loop does not stop; but the value lexer sees the keyword
"if" one character in and lexes nothing, returning a null token, and the
subsequent strlen call dereferences it (modelled as the nullDeref error). -/
theorem C10_option_token_null :
    string_to_explicit_location "-qualified xif k".toList Language.other false =
      .error .nullDeref ∧
    string_to_event_location "-qualified xif k".toList Language.other .wild =
      .error .nullDeref ∧
    explicit_location_lex_one "xif k".toList Language.other false = .ok none ∧
    linespec_lexer_lex_keyword "xif k".toList = false ∧
    linespec_lexer_lex_keyword "if k".toList = true := by decide

/-- C2: when the explicit-location parse succeeds with an empty explicit
location, the dispatcher discards it, carries its match type into basic
resolution of the advanced input, and returns the basic location; in
particular "-qualified myfunc" produces a linespec location for myfunc with
match type FULL. -/
theorem C2_empty_explicit_fallback :
    (∀ (s : Str) (lang : Language) (mt : MatchType) (loc : ExplicitLoc) (rest : Str),
      string_to_explicit_location s lang false = .ok (some (loc, rest)) →
      explicit_empty_p loc = true →
      string_to_event_location s lang mt =
        .ok (string_to_event_location_basic rest lang loc.func_name_match_type)) ∧
    string_to_event_location "-qualified myfunc".toList Language.other .wild =
      .ok ({ payload := .linespec ⟨.full, some "myfunc".toList⟩, as_string := [] }, []) := by
  constructor
  · intro s lang mt loc rest h he
    simp [string_to_event_location, h, he]
  · decide

/-- Witness for C2 at the concrete input "-qualified myfunc". -/
theorem C2_empty_explicit_fallback_witness :
    string_to_explicit_location "-qualified myfunc".toList Language.other false =
      .ok (some ({ initialize_explicit_location with func_name_match_type := .full },
        "myfunc".toList)) ∧
    string_to_event_location "-qualified myfunc".toList Language.other .wild =
      .ok (string_to_event_location_basic "myfunc".toList Language.other
        ({ initialize_explicit_location with
            func_name_match_type := MatchType.full }).func_name_match_type) := by
  refine ⟨by decide, ?_⟩
  exact C2_empty_explicit_fallback.1 _ _ _ _ _ (by decide) (by decide)

/-- A non-empty trailing-trimmed string still has a non-whitespace character
after leading whitespace is dropped. -/
theorem trim_both_ne_nil_iff (s : Str) :
    remove_trailing_whitespace s ≠ [] ↔
      (remove_trailing_whitespace s).dropWhile c_isspace ≠ [] := by
  constructor
  · intro h hd
    have hall : ∀ x ∈ remove_trailing_whitespace s, c_isspace x = true :=
      List.dropWhile_eq_nil_iff.mp hd
    obtain ⟨c, t, hct⟩ : ∃ c t, (remove_trailing_whitespace s).reverse = c :: t := by
      rcases hr : (remove_trailing_whitespace s).reverse with _ | ⟨c, t⟩
      · exact absurd (by simpa using congrArg List.reverse hr) h
      · exact ⟨c, t, rfl⟩
    have hc : c_isspace c = false := by
      have : (s.reverse.dropWhile c_isspace) = c :: t := by
        simpa [remove_trailing_whitespace] using hct
      exact dropWhile_head_false this
    have hmem : c ∈ remove_trailing_whitespace s := by
      have : c ∈ (remove_trailing_whitespace s).reverse := by simp [hct]
      simpa using this
    rw [hall c hmem] at hc
    cases hc
  · intro h hn
    simp [hn] at h

/-- Counterexample to C8 as stated: the input " main" (leading whitespace) is
consumed whole by the tokenizer, and the stored spec string keeps the leading
whitespace; it is not the both-sides-trimmed consumed substring. -/
theorem C8_counterexample :
    (new_linespec_location (' ' :: "main".toList) .wild).1.spec_string =
      some (' ' :: "main".toList) ∧
    trim_both ((' ' :: "main".toList).take
      (linespec_lex_to_end (' ' :: "main".toList))) = "main".toList ∧
    (' ' :: "main".toList) ≠ "main".toList ∧
    c_isspace ' ' = true := by decide

/-- C8 as amended: the stored spec string, when present, is exactly the
substring consumed by the linespec tokenizer with its trailing whitespace
removed (leading whitespace is preserved), and it is present exactly when
the trimmed consumed substring is non-empty. -/
theorem C8_spec_string_amended (s : Str) (mt : MatchType) :
    ((new_linespec_location s mt).1.spec_string ≠ none ↔
      trim_both (s.take (linespec_lex_to_end s)) ≠ []) ∧
    (∀ t, (new_linespec_location s mt).1.spec_string = some t →
      t = remove_trailing_whitespace (s.take (linespec_lex_to_end s))) := by
  constructor
  · by_cases h : remove_trailing_whitespace (s.take (linespec_lex_to_end s)) = []
    · simp [new_linespec_location, h, trim_both]
    · simp only [new_linespec_location, h, trim_both]
      simpa [h] using (trim_both_ne_nil_iff (s.take (linespec_lex_to_end s))).mp h
  · intro t ht
    by_cases h : remove_trailing_whitespace (s.take (linespec_lex_to_end s)) = [] <;>
      simp [new_linespec_location, h] at ht <;> simp [ht, h]

/-- Witness for C8's amended theorem at the input "main". -/
theorem C8_spec_string_amended_witness :
    (new_linespec_location "main".toList .wild).1.spec_string = some "main".toList ∧
    "main".toList =
      remove_trailing_whitespace ("main".toList.take
        (linespec_lex_to_end "main".toList)) := by
  refine ⟨by decide, ?_⟩
  exact (C8_spec_string_amended "main".toList .wild).2 "main".toList (by decide)

/-- The rendering of an explicit location is the separator-joined list of its
present fields in the fixed order source, function, label, line. -/
theorem explicit_render_eq (b : Bool) (l : ExplicitLoc) :
    explicit_to_string_internal b l =
      joinSep (if b then ':' else ' ') (explicit_fields_spec b l) := by
  obtain ⟨src, fn, lb, ⟨off, sg⟩, mt⟩ := l
  cases src <;> cases fn <;> cases lb <;> cases sg <;>
    simp [explicit_to_string_internal, explicit_fields_spec, joinSep, lineSignStr]

/-- C7: the explicit rendering emits the present fields in exactly the order
source, function, label, line, joined by single spaces, each preceded by its
flag name, with -qualified inserted before -function for a FULL match type;
the linespec-compatible rendering emits the same fields in the same order
joined by colons and without the -source, -function, -label, -line flag
names. -/
theorem C7_explicit_render_order (l : ExplicitLoc) :
    explicit_location_to_string l = joinSep ' ' (explicit_fields_spec false l) ∧
    explicit_location_to_linespec l = joinSep ':' (explicit_fields_spec true l) := by
  constructor
  · simpa using explicit_render_eq false l
  · simpa using explicit_render_eq true l

/-- The option-value lexer only consults the completion flag on error paths:
a successful strict lex gives the same result in any mode. -/
theorem lex_one_mono {s : Str} {lang : Language} {r} (b : Bool)
    (h : explicit_location_lex_one s lang false = .ok r) :
    explicit_location_lex_one s lang b = .ok r := by
  cases s with
  | nil => simpa [explicit_location_lex_one] using h
  | cons c t =>
    by_cases hq : c ∈ linespec_quote_characters
    · cases hfq : find_end_quote t c with
      | none => simp [explicit_location_lex_one, hq, hfq] at h
      | some i =>
        simp [explicit_location_lex_one, hq, hfq] at h ⊢
        exact h
    · simp only [explicit_location_lex_one, if_neg hq] at h ⊢
      exact h

/-- The function-name lexer only consults the completion flag on error paths:
a successful strict lex gives the same result in any mode. -/
theorem lex_one_function_mono {s : Str} {lang : Language} {r} (b : Bool)
    (h : explicit_location_lex_one_function s lang false = .ok r) :
    explicit_location_lex_one_function s lang b = .ok r := by
  cases s with
  | nil => simpa [explicit_location_lex_one_function] using h
  | cons q t =>
    by_cases hq : q ∈ linespec_quote_characters ∧
        ¬(lang = .ada ∧ q = '"' ∧ is_ada_operator (q :: t) = true)
    · cases hfq : find_toplevel_char t q with
      | none => simp [explicit_location_lex_one_function, hq, hfq] at h
      | some i =>
        simp [explicit_location_lex_one_function, hq, hfq] at h ⊢
        exact h
    · simp only [explicit_location_lex_one_function, if_neg hq] at h ⊢
      exact h

/-- A loop step that does not raise in strict mode behaves identically with
completion support enabled. -/
theorem stel_step_mono (lang : Language) (s : Str) (loc : ExplicitLoc)
    (h : ∀ e, stel_step lang false s loc ≠ StepRes.err e) :
    stel_step lang true s loc = stel_step lang false s loc := by
  by_cases h1 : (s.isEmpty || (s.head? == some ',')) = true
  · simp [stel_step, h1]
  · by_cases h2 : linespec_lexer_lex_keyword s = true
    · simp [stel_step, h1, h2]
    · cases hlex : explicit_location_lex_one s lang false with
      | error e =>
        exact absurd (by simp [stel_step, h1, h2, hlex]) (h e)
      | ok o =>
        cases o with
        | none => exact absurd (by simp [stel_step, h1, h2, hlex]) (h .nullDeref)
        | some pr =>
          obtain ⟨opt, s1⟩ := pr
          by_cases h3 : optMatch opt opt_source = true
          · cases harg : explicit_location_lex_one (skip_spaces s1) lang false with
            | error e =>
              exact absurd (by simp [stel_step, h1, h2, hlex, h3, harg]) (h e)
            | ok r =>
              have harg2 := lex_one_mono (b := true) harg
              cases r with
              | none =>
                exact absurd (by simp [stel_step, h1, h2, hlex, h3, harg])
                  (h .missingArg)
              | some p => simp [stel_step, h1, h2, hlex, h3, harg, harg2]
          · by_cases h4 : optMatch opt opt_function = true
            · cases harg :
                explicit_location_lex_one_function (skip_spaces s1) lang false with
              | error e =>
                exact absurd (by simp [stel_step, h1, h2, hlex, h3, h4, harg]) (h e)
              | ok r =>
                have harg2 := lex_one_function_mono (b := true) harg
                cases r with
                | none =>
                  exact absurd (by simp [stel_step, h1, h2, hlex, h3, h4, harg])
                    (h .missingArg)
                | some p => simp [stel_step, h1, h2, hlex, h3, h4, harg, harg2]
            · by_cases h5 : optMatch opt opt_qualified = true
              · simp [stel_step, h1, h2, hlex, h3, h4, h5]
              · by_cases h6 : optMatch opt opt_line = true
                · cases harg : explicit_location_lex_one (skip_spaces s1) lang false with
                  | error e =>
                    exact absurd
                      (by simp [stel_step, h1, h2, hlex, h3, h4, h5, h6, harg]) (h e)
                  | ok r =>
                    cases r with
                    | none =>
                      exact absurd
                        (by simp [stel_step, h1, h2, hlex, h3, h4, h5, h6, harg])
                        (h .missingArg)
                    | some p => simp [stel_step, h1, h2, hlex, h3, h4, h5, h6, harg]
                · by_cases h7 : optMatch opt opt_label = true
                  · cases harg : explicit_location_lex_one (skip_spaces s1) lang false with
                    | error e =>
                      exact absurd
                        (by simp [stel_step, h1, h2, hlex, h3, h4, h5, h6, h7, harg])
                        (h e)
                    | ok r =>
                      have harg2 := lex_one_mono (b := true) harg
                      cases r with
                      | none =>
                        exact absurd
                          (by simp [stel_step, h1, h2, hlex, h3, h4, h5, h6, h7, harg])
                          (h .missingArg)
                      | some p =>
                        simp [stel_step, h1, h2, hlex, h3, h4, h5, h6, h7, harg, harg2]
                  · by_cases h8 : optInvalidShape opt = true
                    · exact absurd
                        (by simp [stel_step, h1, h2, hlex, h3, h4, h5, h6, h7, h8])
                        (h .invalidArg)
                    · simp [stel_step, h1, h2, hlex, h3, h4, h5, h6, h7, h8]

/-- A loop run that succeeds in strict mode gives the same result with
completion support enabled. -/
theorem stel_loop_mono (lang : Language) :
    ∀ (fuel : Nat) (s : Str) (loc : ExplicitLoc) res,
      stel_loop lang false fuel s loc = .ok res →
      stel_loop lang true fuel s loc = .ok res := by
  intro fuel
  induction fuel with
  | zero =>
    intro s loc res h
    simpa [stel_loop] using h
  | succ f ih =>
    intro s loc res h
    simp only [stel_loop] at h ⊢
    cases hs : stel_step lang false s loc with
    | done l r =>
      rw [stel_step_mono lang s loc (by intro e he; rw [hs] at he; cases he), hs]
      rw [hs] at h
      exact h
    | err e => rw [hs] at h; cases h
    | cont l s2 =>
      rw [stel_step_mono lang s loc (by intro e he; rw [hs] at he; cases he), hs]
      rw [hs] at h
      exact ih s2 l res h

/-- C4: when the option loop (strict mode) completes with a source filename
but no function name, no label name, and a still-unknown line offset sign,
strict parsing fails with the incomplete-explicit-location error, while
completion-mode parsing of the same input does not raise and returns the
partial result; and "-source foo.c -line 10" succeeds strictly. -/
theorem C4_incomplete_validation :
    (∀ (s : Str) (lang : Language) (loc : ExplicitLoc) (rest : Str),
      stel_guard s = true →
      stel_loop lang false (s.length + 1) s initialize_explicit_location =
        .ok (loc, rest) →
      loc.source_filename.isSome = true →
      loc.function_name = none →
      loc.label_name = none →
      loc.line_offset.sign = .unknown →
      string_to_explicit_location s lang false = .error .incompleteExplicit ∧
      string_to_explicit_location s lang true = .ok (some (loc, rest))) ∧
    string_to_explicit_location "-source foo.c -line 10".toList Language.other false =
      .ok (some ({ initialize_explicit_location with
        source_filename := some "foo.c".toList
        line_offset := ⟨10, .none_⟩ }, [])) := by
  constructor
  · intro s lang loc rest hg hloop hs hf hl hsign
    constructor
    · simp [string_to_explicit_location, hg, hloop, hs, hf, hl, hsign]
    · have hc := stel_loop_mono lang _ _ _ _ hloop
      simp [string_to_explicit_location, hg, hc]
  · decide

/-- Witness for C4 at the concrete input "-source foo.c". -/
theorem C4_incomplete_validation_witness :
    stel_guard "-source foo.c".toList = true ∧
    (string_to_explicit_location "-source foo.c".toList Language.other false =
        .error .incompleteExplicit ∧
      string_to_explicit_location "-source foo.c".toList Language.other true =
        .ok (some ({ initialize_explicit_location with
          source_filename := some "foo.c".toList }, []))) :=
  ⟨by decide, C4_incomplete_validation.1 _ _ _ _ (by decide) (by decide) (by decide)
    (by decide) (by decide) (by decide)⟩

/-- dropWhile never lengthens a list. -/
theorem length_dropWhile_le (p : Char → Bool) (s : Str) :
    (s.dropWhile p).length ≤ s.length := by
  induction s with
  | nil => simp
  | cons a t ih =>
    rw [List.dropWhile_cons]
    by_cases ha : p a = true
    · simp only [ha, if_true]
      exact Nat.le_succ_of_le ih
    · simp [ha]

/-- skip_spaces never lengthens the input. -/
theorem skip_spaces_le (s : Str) : (skip_spaces s).length ≤ s.length :=
  length_dropWhile_le c_isspace s

/-- The head of a skip_spaces result is never whitespace. -/
theorem skip_spaces_headOk (s : Str) : headOk (skip_spaces s) := by
  intro c r h
  exact dropWhile_head_false h

/-- The remainder of a successful option-value lex is a suffix drop of the
input, and a zero-length consumption only happens when the input starts with
whitespace or a comma. -/
theorem lex_one_shape {s : Str} {lang : Language} {b : Bool} {t r : Str}
    (h : explicit_location_lex_one s lang b = .ok (some (t, r))) :
    ∃ k, r = s.drop k ∧
      (1 ≤ k ∨ ∃ x xs, s = x :: xs ∧ (c_isspace x || x == ',') = true) := by
  cases s with
  | nil => simp [explicit_location_lex_one] at h
  | cons c cs =>
    by_cases hq : c ∈ linespec_quote_characters
    · cases hfq : find_end_quote cs c with
      | none =>
        cases b with
        | false => simp [explicit_location_lex_one, hq, hfq] at h
        | true =>
          simp only [explicit_location_lex_one, if_pos hq, hfq] at h
          simp only [Bool.true_eq_false, if_false, Except.ok.injEq,
            Option.some.injEq, Prod.mk.injEq] at h
          refine ⟨(c :: cs).length, ?_, Or.inl (by simp)⟩
          rw [← h.2, List.drop_length]
      | some i =>
        simp only [explicit_location_lex_one, if_pos hq, hfq, Except.ok.injEq,
          Option.some.injEq, Prod.mk.injEq] at h
        refine ⟨i + 2, ?_, Or.inl (by omega)⟩
        rw [← h.2]
        rfl
    · by_cases hpm : (c = '-' ∨ c = '+')
      · simp only [explicit_location_lex_one, if_neg hq, if_pos hpm,
          Except.ok.injEq, Option.some.injEq, Prod.mk.injEq] at h
        have hpc : (!(c == ',') && !(c_isspace c)) = true := by
          rcases hpm with rfl | rfl <;> decide
        refine ⟨((c :: cs).takeWhile (fun x => !(x == ',') && !(c_isspace x))).length,
          by rw [← h.2], Or.inl ?_⟩
        rw [List.takeWhile_cons, hpc]
        simp
      · rcases hrest : (c :: cs).drop ((List.takeWhile c_isdigit (c :: cs)).length)
          with _ | ⟨x, xs⟩
        · simp only [explicit_location_lex_one, if_neg hq, if_neg hpm, hrest,
            Except.ok.injEq, Option.some.injEq, Prod.mk.injEq] at h
          refine ⟨((c :: cs).takeWhile c_isdigit).length, ?_, Or.inl ?_⟩
          · rw [← h.2, hrest]
          · by_contra hk
            have hz : ((c :: cs).takeWhile c_isdigit).length = 0 := by omega
            rw [hz] at hrest
            simp at hrest
        · simp only [explicit_location_lex_one, if_neg hq, if_neg hpm, hrest] at h
          by_cases hx : (c_isspace x || x == ',') = true
          · rw [if_pos hx] at h
            simp only [Except.ok.injEq, Option.some.injEq, Prod.mk.injEq] at h
            by_cases hd : ((c :: cs).takeWhile c_isdigit).length = 0
            · refine ⟨((c :: cs).takeWhile c_isdigit).length, ?_, Or.inr ?_⟩
              · rw [← h.2, hrest]
              · rw [hd] at hrest
                simp only [List.drop_zero] at hrest
                exact ⟨c, cs, rfl, by rw [List.cons.injEq] at hrest; rw [hrest.1]; exact hx⟩
            · exact ⟨((c :: cs).takeWhile c_isdigit).length,
                by rw [← h.2, hrest], Or.inl (by omega)⟩
          · rw [if_neg hx] at h
            by_cases hn : 0 < lex_one_sym_go lang (c :: cs).length (c :: cs)
            · rw [if_pos hn] at h
              simp only [Except.ok.injEq, Option.some.injEq, Prod.mk.injEq] at h
              exact ⟨lex_one_sym_go lang (c :: cs).length (c :: cs),
                by rw [← h.2], Or.inl (by omega)⟩
            · rw [if_neg hn] at h
              cases h

/-- A successful option-value lex never lengthens the remaining input. -/
theorem lex_one_le {s : Str} {lang : Language} {b : Bool} {t r : Str}
    (h : explicit_location_lex_one s lang b = .ok (some (t, r))) :
    r.length ≤ s.length := by
  obtain ⟨k, rfl, -⟩ := lex_one_shape h
  simp [Nat.sub_le]

/-- At a position that is non-empty and starts with neither whitespace nor a
comma, a successful strict option-value lex strictly consumes input. -/
theorem lex_one_lt {c : Char} {cs : Str} {lang : Language} {b : Bool} {t r : Str}
    (h : explicit_location_lex_one (c :: cs) lang b = .ok (some (t, r)))
    (hs : c_isspace c = false) (hc : (c == ',') = false) :
    r.length < (c :: cs).length := by
  obtain ⟨k, rfl, hk⟩ := lex_one_shape h
  rcases hk with hk | ⟨x, xs, hx, hxs⟩
  · simp only [List.length_drop]
    simp only [List.length_cons]
    omega
  · rw [List.cons.injEq] at hx
    rw [← hx.1] at hxs
    rw [hs, hc] at hxs
    cases hxs

/-- The remainder of a successful function-name lex is a suffix drop of the
input. -/
theorem lex_one_function_shape {s : Str} {lang : Language} {b : Bool} {t r : Str}
    (h : explicit_location_lex_one_function s lang b = .ok (some (t, r))) :
    ∃ k, r = s.drop k := by
  cases s with
  | nil => simp [explicit_location_lex_one_function] at h
  | cons q u =>
    by_cases hq : q ∈ linespec_quote_characters ∧
        ¬(lang = .ada ∧ q = '"' ∧ is_ada_operator (q :: u) = true)
    · cases hfq : find_toplevel_char u q with
      | none =>
        cases b with
        | false => simp [explicit_location_lex_one_function, hq, hfq] at h
        | true =>
          simp only [explicit_location_lex_one_function, if_pos hq, hfq] at h
          simp only [Bool.true_eq_false, if_false, Except.ok.injEq,
            Option.some.injEq, Prod.mk.injEq] at h
          exact ⟨(q :: u).length, by rw [← h.2, List.drop_length]⟩
      | some i =>
        simp only [explicit_location_lex_one_function, if_pos hq, hfq,
          Except.ok.injEq, Option.some.injEq, Prod.mk.injEq] at h
        exact ⟨i + 2, by rw [← h.2]; rfl⟩
    · simp only [explicit_location_lex_one_function, if_neg hq] at h
      by_cases he : 0 < lex_one_function_end (q :: u)
      · rw [if_pos he] at h
        simp only [Except.ok.injEq, Option.some.injEq, Prod.mk.injEq] at h
        exact ⟨lex_one_function_end (q :: u), by rw [← h.2]⟩
      · rw [if_neg he] at h
        cases h

/-- A successful function-name lex never lengthens the remaining input. -/
theorem lex_one_function_le {s : Str} {lang : Language} {b : Bool} {t r : Str}
    (h : explicit_location_lex_one_function s lang b = .ok (some (t, r))) :
    r.length ≤ s.length := by
  obtain ⟨k, rfl⟩ := lex_one_function_shape h
  simp [Nat.sub_le]

/-- Every continuing loop step leaves a skip_spaces suffix that is strictly
shorter than the input whenever the input did not start with whitespace. -/
theorem stel_step_cont_shape {lang : Language} {comp : Bool} {s : Str}
    {loc l : ExplicitLoc} {s2 : Str}
    (h : stel_step lang comp s loc = .cont l s2) :
    ∃ X : Str, s2 = skip_spaces X ∧ (headOk s → X.length < s.length) := by
  by_cases h1 : (s.isEmpty || (s.head? == some ',')) = true
  · simp [stel_step, h1] at h
  · by_cases h2 : linespec_lexer_lex_keyword s = true
    · simp [stel_step, h1, h2] at h
    · obtain ⟨c, cs, rfl⟩ : ∃ c cs, s = c :: cs := by
        cases s with
        | nil => simp at h1
        | cons c cs => exact ⟨c, cs, rfl⟩
      have hc0 : ¬(c = ',') := by
        intro hcc
        rw [hcc] at h1
        simp at h1
      have hc : (c == ',') = false := by simpa using hc0
      cases hlex : explicit_location_lex_one (c :: cs) lang false with
      | error e => simp [stel_step, h1, h2, hc0, hlex] at h
      | ok o =>
        cases o with
        | none => simp [stel_step, h1, h2, hc0, hlex] at h
        | some pr =>
          obtain ⟨opt, s1⟩ := pr
          have hs1 : headOk (c :: cs) → s1.length < (c :: cs).length := fun hho =>
            lex_one_lt hlex (hho c cs rfl) hc
          by_cases h3 : optMatch opt opt_source = true
          · cases harg : explicit_location_lex_one (skip_spaces s1) lang comp with
            | error e => simp [stel_step, h1, h2, hc0, hlex, h3, harg] at h
            | ok r =>
              cases r with
              | none =>
                cases comp with
                | false => simp [stel_step, h1, h2, hc0, hlex, h3, harg] at h
                | true =>
                  simp only [stel_step, h1, h2, hc0, hlex, h3, harg] at h
                  simp only [if_true, Bool.false_eq_true, if_false, Option.map_none,
                    Option.isNone_none, Bool.not_true, Bool.and_false,
                    StepRes.cont.injEq] at h
                  refine ⟨skip_spaces s1, h.2.symm, fun hho => ?_⟩
                  exact lt_of_le_of_lt (skip_spaces_le s1) (hs1 hho)
              | some p =>
                simp only [stel_step, h1, h2, hc0, hlex, h3, harg] at h
                simp only [if_true, Bool.false_eq_true, if_false, Option.map_some,
                  Option.isNone_some, Bool.false_and, Bool.and_false,
                  StepRes.cont.injEq] at h
                refine ⟨p.2, h.2.symm, fun hho => ?_⟩
                have h4 := lex_one_le harg
                have h5 := skip_spaces_le s1
                have h6 := hs1 hho
                omega
          · by_cases h4 :
              optMatch opt opt_function = true
            · cases harg :
                explicit_location_lex_one_function (skip_spaces s1) lang comp with
              | error e => simp [stel_step, h1, h2, hc0, hlex, h3, h4, harg] at h
              | ok r =>
                cases r with
                | none =>
                  cases comp with
                  | false => simp [stel_step, h1, h2, hc0, hlex, h3, h4, harg] at h
                  | true =>
                    simp only [stel_step, h1, h2, hc0, hlex, h3, h4, harg] at h
                    simp only [if_true, Bool.false_eq_true, if_false, Option.map_none,
                      Option.isNone_none, Bool.not_true, Bool.and_false,
                      StepRes.cont.injEq] at h
                    refine ⟨skip_spaces s1, h.2.symm, fun hho => ?_⟩
                    exact lt_of_le_of_lt (skip_spaces_le s1) (hs1 hho)
                | some p =>
                  simp only [stel_step, h1, h2, hc0, hlex, h3, h4, harg] at h
                  simp only [if_true, Bool.false_eq_true, if_false, Option.map_some,
                    Option.isNone_some, Bool.false_and, Bool.and_false,
                    StepRes.cont.injEq] at h
                  refine ⟨p.2, h.2.symm, fun hho => ?_⟩
                  have h5 := lex_one_function_le harg
                  have h6 := skip_spaces_le s1
                  have h7 := hs1 hho
                  omega
            · by_cases h5 :
                optMatch opt opt_qualified = true
              · simp only [stel_step, h1, h2, hc0, hlex, h3, h4, h5, if_true, Bool.false_eq_true, if_false,
                  StepRes.cont.injEq] at h
                refine ⟨skip_spaces s1, h.2.symm, fun hho => ?_⟩
                exact lt_of_le_of_lt (skip_spaces_le s1) (hs1 hho)
              · by_cases h6 : optMatch opt opt_line = true
                · cases harg :
                    explicit_location_lex_one (skip_spaces s1) lang false with
                  | error e => simp [stel_step, h1, h2, hc0, hlex, h3, h4, h5, h6, harg] at h
                  | ok r =>
                    cases r with
                    | none =>
                      cases comp with
                      | false =>
                        simp [stel_step, h1, h2, hc0, hlex, h3, h4, h5, h6, harg] at h
                      | true =>
                        simp only [stel_step, h1, h2, hc0, hlex, h3, h4, h5, h6, harg] at h
                        simp only [if_true, Bool.not_true, Bool.false_eq_true, if_false,
                          StepRes.cont.injEq] at h
                        refine ⟨skip_spaces (skip_spaces s1), h.2.symm, fun hho => ?_⟩
                        have ha := skip_spaces_le (skip_spaces s1)
                        have hb := skip_spaces_le s1
                        have hc2 := hs1 hho
                        omega
                    | some p =>
                      simp only [stel_step, h1, h2, hc0, hlex, h3, h4, h5, h6, harg, if_true, Bool.false_eq_true, if_false,
                        StepRes.cont.injEq] at h
                      refine ⟨p.2, h.2.symm, fun hho => ?_⟩
                      have ha := lex_one_le harg
                      have hb := skip_spaces_le s1
                      have hc2 := hs1 hho
                      omega
                · by_cases h7 : optMatch opt opt_label = true
                  · cases harg :
                      explicit_location_lex_one (skip_spaces s1) lang comp with
                    | error e =>
                      simp [stel_step, h1, h2, hc0, hlex, h3, h4, h5, h6, h7, harg] at h
                    | ok r =>
                      cases r with
                      | none =>
                        cases comp with
                        | false =>
                          simp [stel_step, h1, h2, hc0, hlex, h3, h4, h5, h6, h7, harg] at h
                        | true =>
                          simp only [stel_step, h1, h2, hc0, hlex, h3, h4, h5, h6, h7,
                            harg] at h
                          simp only [if_true, Bool.false_eq_true, if_false, Option.map_none,
                            Option.isNone_none, Bool.not_true, Bool.and_false,
                            StepRes.cont.injEq] at h
                          refine ⟨skip_spaces s1, h.2.symm, fun hho => ?_⟩
                          exact lt_of_le_of_lt (skip_spaces_le s1) (hs1 hho)
                      | some p =>
                        simp only [stel_step, h1, h2, hc0, hlex, h3, h4, h5, h6, h7,
                          harg] at h
                        simp only [if_true, Bool.false_eq_true, if_false, Option.map_some,
                          Option.isNone_some, Bool.false_and, Bool.and_false,
                          StepRes.cont.injEq] at h
                        refine ⟨p.2, h.2.symm, fun hho => ?_⟩
                        have ha := lex_one_le harg
                        have hb := skip_spaces_le s1
                        have hc2 := hs1 hho
                        omega
                  · by_cases h8 : optInvalidShape opt = true
                    · cases comp with
                      | false =>
                        simp [stel_step, h1, h2, hc0, hlex, h3, h4, h5, h6, h7, h8] at h
                      | true =>
                        simp only [stel_step, h1, h2, hc0, hlex, h3, h4, h5, h6, h7, h8, if_true, Bool.false_eq_true, if_false,
                          Bool.not_true, StepRes.cont.injEq] at h
                        refine ⟨skip_spaces s1, h.2.symm, fun hho => ?_⟩
                        exact lt_of_le_of_lt (skip_spaces_le s1) (hs1 hho)
                    · simp [stel_step, h1, h2, hc0, hlex, h3, h4, h5, h6, h7, h8] at h

/-- A continuing loop step strictly consumes input. -/
theorem stel_step_cont_lt {lang : Language} {comp : Bool} {s : Str}
    {loc l : ExplicitLoc} {s2 : Str} (hho : headOk s)
    (h : stel_step lang comp s loc = .cont l s2) : s2.length < s.length := by
  obtain ⟨X, rfl, hX⟩ := stel_step_cont_shape h
  exact lt_of_le_of_lt (skip_spaces_le X) (hX hho)

/-- A continuing loop step leaves an input that does not start with
whitespace. -/
theorem stel_step_cont_headOk {lang : Language} {comp : Bool} {s : Str}
    {loc l : ExplicitLoc} {s2 : Str}
    (h : stel_step lang comp s loc = .cont l s2) : headOk s2 := by
  obtain ⟨X, rfl, -⟩ := stel_step_cont_shape h
  exact skip_spaces_headOk X

/-- Any two sufficiently large fuels give the option loop the same result. -/
theorem stel_loop_fuel_mono (lang : Language) (comp : Bool) :
    ∀ (n f g : Nat) (s : Str) (loc : ExplicitLoc),
      s.length ≤ n → n < f → n < g → headOk s →
      stel_loop lang comp f s loc = stel_loop lang comp g s loc := by
  intro n
  induction n using Nat.strong_induction_on with
  | _ n ih =>
    intro f g s loc hn hf hg hho
    obtain ⟨f2, rfl⟩ : ∃ f2, f = f2 + 1 := ⟨f - 1, by omega⟩
    obtain ⟨g2, rfl⟩ : ∃ g2, g = g2 + 1 := ⟨g - 1, by omega⟩
    simp only [stel_loop]
    cases hs : stel_step lang comp s loc with
    | done l r => rfl
    | err e => rfl
    | cont l s2 =>
      have hlt := stel_step_cont_lt hho hs
      have hho2 := stel_step_cont_headOk hs
      have hslen : 1 ≤ s.length := by
        cases s with
        | nil => simp [stel_step] at hs
        | cons a b => simp
      exact ih (n - 1) (by omega) f2 g2 s2 l (by omega) (by omega) (by omega) hho2

/-- C9: the option abbreviation "-func" parses exactly like the full
spelling "-function" for every argument text (prefix matching of the lexed
option name against the full option name). -/
theorem C9_option_abbreviation (T : Str) (lang : Language) (comp : Bool) :
    string_to_explicit_location ("-func ".toList ++ T) lang comp =
      string_to_explicit_location ("-function ".toList ++ T) lang comp := by
  have hg1 : stel_guard ("-func ".toList ++ T) = true := rfl
  have hg2 : stel_guard ("-function ".toList ++ T) = true := rfl
  have hstep : stel_step lang comp ("-func ".toList ++ T) initialize_explicit_location =
      stel_step lang comp ("-function ".toList ++ T) initialize_explicit_location := rfl
  have hho1 : headOk ("-func ".toList ++ T) := by
    intro c r h
    rw [show "-func ".toList ++ T = '-' :: ("func ".toList ++ T) from rfl] at h
    injection h with h1 h2
    rw [← h1]
    decide
  have hho2 : headOk ("-function ".toList ++ T) := by
    intro c r h
    rw [show "-function ".toList ++ T = '-' :: ("function ".toList ++ T) from rfl] at h
    injection h with h1 h2
    rw [← h1]
    decide
  have hloop : stel_loop lang comp (("-func ".toList ++ T).length + 1)
      ("-func ".toList ++ T) initialize_explicit_location =
      stel_loop lang comp (("-function ".toList ++ T).length + 1)
        ("-function ".toList ++ T) initialize_explicit_location := by
    simp only [stel_loop]
    rw [hstep]
    cases hres : stel_step lang comp ("-function ".toList ++ T)
        initialize_explicit_location with
    | done l r => rfl
    | err e => rfl
    | cont l s2 =>
      have hres1 : stel_step lang comp ("-func ".toList ++ T)
          initialize_explicit_location = .cont l s2 := hstep.trans hres
      have hlt1 := stel_step_cont_lt hho1 hres1
      have hlt2 := stel_step_cont_lt hho2 hres
      have hho3 := stel_step_cont_headOk hres
      exact stel_loop_fuel_mono lang comp s2.length _ _ s2 l le_rfl hlt1 hlt2 hho3
  simp only [string_to_explicit_location, hg1, hg2, Bool.not_true,
    Bool.false_eq_true, if_false]
  rw [hloop]

/-- Numeric bounds on a plain character: its code is at least 46 (dot),
is not 47 (slash), and is at most 122. -/
theorem plain_bounds {c : Char} (h : plainChar c = true) :
    46 ≤ c.toNat ∧ c.toNat ≠ 47 ∧ c.toNat ≤ 122 := by
  simp only [plainChar, c_isalnum, c_isalpha, c_isdigit, Bool.or_eq_true,
    Bool.and_eq_true, decide_eq_true_eq, beq_iff_eq] at h
  rcases h with ((((h | h) | h) | h) | h)
  · omega
  · omega
  · omega
  · subst h; decide
  · subst h; decide

/-- A plain character is not whitespace. -/
theorem plain_not_space {c : Char} (h : plainChar c = true) : c_isspace c = false := by
  obtain ⟨h1, h2, h3⟩ := plain_bounds h
  simp only [c_isspace, Bool.or_eq_false_iff, Bool.and_eq_false_iff,
    decide_eq_false_iff_not]
  omega

/-- A plain character differs from every character with a code below 46. -/
theorem plain_ne {c d : Char} (h : plainChar c = true) (hd : d.toNat < 46) :
    c ≠ d := by
  obtain ⟨h1, h2, h3⟩ := plain_bounds h
  intro hcd
  rw [hcd] at h1
  omega

/-- Boolean form of plain_ne. -/
theorem plain_bne {c d : Char} (h : plainChar c = true) (hd : d.toNat < 46) :
    (c == d) = false := by
  cases hcd : c == d with
  | false => rfl
  | true => exact absurd (eq_of_beq hcd) (plain_ne h hd)

/-- The parts of a good token: non-empty, plain characters, no proper suffix
in the keyword table, and not ending in the operator keyword. -/
theorem goodToken_unpack {t : Str} (h : goodToken t = true) :
    t ≠ [] ∧ (∀ c ∈ t, plainChar c = true) ∧
      (∀ u, u <:+ t → u ≠ t → u ∉ linespec_keywords) ∧
      ¬(cp_operator_str <:+ t) := by
  simp only [goodToken, Bool.and_eq_true] at h
  obtain ⟨⟨⟨h1, h2⟩, h3⟩, h4⟩ := h
  refine ⟨?_, by simpa using h2, ?_, ?_⟩
  · intro hnil
    rw [hnil] at h1
    simp at h1
  · intro u hu hne hmem
    have hx := List.all_eq_true.mp h3 u ((List.mem_tails u t).mpr hu)
    rw [Bool.or_eq_true] at hx
    rcases hx with hh | hh
    · exact hne (by simpa using hh)
    · have : u ∉ linespec_keywords := by simpa using hh
      exact this hmem
  · intro hop
    have hmem := (List.mem_tails cp_operator_str t).mpr hop
    simp_all

/-- No linespec keyword matches anywhere strictly inside a good token, even
with the following rendered text (empty or space-led) appended. -/
theorem kw_at_suffix_false {t0 : Str}
    (hplain : ∀ c ∈ t0, plainChar c = true)
    (hkw : ∀ u, u <:+ t0 → u ≠ t0 → u ∉ linespec_keywords)
    {rest : Str} (hrest : rest = [] ∨ ∃ r2, rest = ' ' :: r2)
    {u : Str} (hu : u <:+ t0) (hul : u.length < t0.length) :
    linespec_lexer_lex_keyword (u ++ rest) = false := by
  rw [linespec_lexer_lex_keyword, List.any_eq_false]
  intro kw hkwmem
  by_contra hkm
  have hkm2 : kwMatch kw (u ++ rest) = true := by simpa using hkm
  rw [kwMatch, Bool.and_eq_true] at hkm2
  obtain ⟨hpre, hafter⟩ := hkm2
  have hpre2 : kw <+: (u ++ rest) := (List.isPrefixOf_iff_prefix).mp hpre
  rcases Nat.lt_trichotomy kw.length u.length with hlt | heq | hgt
  · have hdrop : (u ++ rest).drop kw.length = u.drop kw.length ++ rest :=
      List.drop_append_of_le_length (by omega)
    rw [hdrop] at hafter
    rcases hud : u.drop kw.length with _ | ⟨x, xs⟩
    · have hz : u.length - kw.length = 0 := by
        rw [← List.length_drop, hud]
        rfl
      omega
    · rw [hud] at hafter
      have hxu : x ∈ u := List.mem_of_mem_drop (by rw [hud]; exact List.mem_cons_self x xs)
      have hxp := plain_not_space (hplain x (hu.subset hxu))
      have hsp : c_isspace x = true := by simpa using hafter
      rw [hxp] at hsp
      cases hsp
  · have htake : kw = (u ++ rest).take kw.length := (List.prefix_iff_eq_take).mp hpre2
    rw [List.take_append_of_le_length (by omega), heq, List.take_length] at htake
    subst htake
    exact hkw kw hu (fun hE => by rw [hE] at hul; omega) hkwmem
  · rcases hrest with rfl | ⟨r2, rfl⟩
    · have hle := hpre2.length_le
      simp at hle
      omega
    · have hsp : ' ' ∈ kw := by
        have htake : kw = (u ++ ' ' :: r2).take kw.length :=
          (List.prefix_iff_eq_take).mp hpre2
        rw [List.take_append_eq_append_take, List.take_of_length_le (by omega)] at htake
        rw [List.take_cons (by omega)] at htake
        rw [htake]
        exact List.mem_append_right _ (List.mem_cons_self _ _)
      have hnosp : ∀ kw2 ∈ linespec_keywords, ' ' ∉ kw2 := by decide
      exact hnosp kw hkwmem hsp

/-- The bare-symbol loop of the option-value lexer consumes exactly a good
token when the following text is empty or starts with a space. -/
theorem sym_go_exact (lang : Language) {t0 : Str}
    (hplain : ∀ c ∈ t0, plainChar c = true)
    (hkw : ∀ u, u <:+ t0 → u ≠ t0 → u ∉ linespec_keywords)
    (hop : ¬(cp_operator_str <:+ t0))
    {rest : Str} (hrest : rest = [] ∨ ∃ r2, rest = ' ' :: r2) :
    ∀ (fuel : Nat) (t : Str), t <:+ t0 → t.length ≤ fuel →
      lex_one_sym_go lang fuel (t ++ rest) = t.length := by
  intro fuel
  induction fuel with
  | zero =>
    intro t hsuf hlen
    have ht : t = [] := List.length_eq_zero.mp (by omega)
    subst ht
    simp [lex_one_sym_go]
  | succ f ih =>
    intro t hsuf hlen
    cases t with
    | nil =>
      rcases hrest with rfl | ⟨r2, rfl⟩
      · simp [lex_one_sym_go]
      · show lex_one_sym_go lang (f + 1) (' ' :: r2) = 0
        rw [lex_one_sym_go]
        rw [if_neg (by decide)]
        rw [show c_isspace ' ' = true from rfl]
        simp
    | cons c t2 =>
      have hc := hplain c (hsuf.subset (List.mem_cons_self c t2))
      have hcomma : ¬(c = ',') := plain_ne hc (by decide)
      have hspace : c_isspace c = false := plain_not_space hc
      have ht2 : t2 <:+ t0 := (List.suffix_cons c t2).trans hsuf
      have hlt2 : t2.length < t0.length := by
        have := hsuf.length_le
        simp at this
        omega
      have hkw2 : linespec_lexer_lex_keyword (t2 ++ rest) = false :=
        kw_at_suffix_false hplain hkw hrest ht2 hlt2
      rw [show (c :: t2) ++ rest = c :: (t2 ++ rest) from rfl]
      rw [lex_one_sym_go]
      rw [if_neg hcomma, hspace, hkw2]
      simp only [Bool.or_self, Bool.false_eq_true, if_false]
      have hcc : (c :: t2).length = t2.length + 1 := by simp
      have hops : cp_operator_str.length = 8 := by decide
      have hlen2 : t2.length + 1 ≤ f + 1 := by
        rw [← hcc]
        simpa using hlen
      by_cases hopc : lang = Language.cplus ∧
          cp_operator_str.isPrefixOf (c :: (t2 ++ rest)) = true
      · rw [if_pos hopc]
        obtain ⟨-, hpre⟩ := hopc
        have hpre2 : cp_operator_str <+: (c :: t2) ++ rest :=
          (List.isPrefixOf_iff_prefix).mp hpre
        have hlen9 : cp_operator_str.length + 1 ≤ (c :: t2).length := by
          by_contra hcon
          push_neg at hcon
          rcases Nat.lt_or_ge (c :: t2).length cp_operator_str.length with hlt | hge
          · rcases hrest with rfl | ⟨r2, rfl⟩
            · have hle := hpre2.length_le
              simp at hle
              simp at hlt
              omega
            · have hspmem : ' ' ∈ cp_operator_str := by
                have htake : cp_operator_str = ((c :: t2) ++ ' ' :: r2).take
                    cp_operator_str.length := (List.prefix_iff_eq_take).mp hpre2
                rw [List.take_append_eq_append_take,
                  List.take_of_length_le (by omega)] at htake
                rw [List.take_cons (by omega)] at htake
                rw [htake]
                exact List.mem_append_right _ (List.mem_cons_self _ _)
              exact absurd hspmem (by decide)
          · have heqlen : (c :: t2).length = cp_operator_str.length := by
              have : cp_operator_str.length = 8 := by decide
              simp at hcon ⊢
              omega
            have hceq : cp_operator_str = c :: t2 := by
              have htake : cp_operator_str = ((c :: t2) ++ rest).take
                  cp_operator_str.length := (List.prefix_iff_eq_take).mp hpre2
              rw [List.take_append_of_le_length (by omega), ← heqlen,
                List.take_length] at htake
              exact htake
            exact hop (hceq ▸ hsuf)
        have hdrop : (c :: (t2 ++ rest)).drop (cp_operator_str.length + 1) =
            (c :: t2).drop (cp_operator_str.length + 1) ++ rest := by
          rw [show c :: (t2 ++ rest) = (c :: t2) ++ rest from rfl]
          exact List.drop_append_of_le_length hlen9
        rw [hdrop]
        rw [ih ((c :: t2).drop (cp_operator_str.length + 1))
          ((List.drop_suffix _ _).trans hsuf)
          (by rw [List.length_drop]; omega)]
        rw [List.length_drop]
        omega
      · rw [if_neg hopc]
        rw [ih t2 ht2 (by omega)]
        omega

/-- takeWhile over an append stops exactly at the boundary when every element
of the first part passes and the second part is empty or starts with a
failing element. -/
theorem takeWhile_append_all {p : Char → Bool} {t rest : Str}
    (h : ∀ c ∈ t, p c = true)
    (hrest : rest = [] ∨ ∃ x xs, rest = x :: xs ∧ p x = false) :
    (t ++ rest).takeWhile p = t := by
  induction t with
  | nil =>
    rcases hrest with rfl | ⟨x, xs, rfl, hx⟩
    · rfl
    · simp [List.takeWhile_cons, hx]
  | cons a t ih =>
    have ha := h a (List.mem_cons_self a t)
    rw [List.cons_append, List.takeWhile_cons, ha]
    simp only [if_true]
    rw [ih (fun c hc => h c (List.mem_cons_of_mem a hc))]

/-- Dropping the takeWhile prefix is dropWhile. -/
theorem drop_takeWhile_eq_dropWhile (p : Char → Bool) (l : Str) :
    l.drop (l.takeWhile p).length = l.dropWhile p := by
  induction l with
  | nil => rfl
  | cons a l ih =>
    rw [List.takeWhile_cons, List.dropWhile_cons]
    by_cases h : p a = true
    · simp only [h, if_true, List.length_cons, List.drop_succ_cons]
      exact ih
    · simp [h]

/-- The option-value lexer consumes exactly a good token when the following
text is empty or starts with a space. -/
theorem lex_one_good {t rest : Str} {lang : Language} {b : Bool}
    (hg : goodToken t = true)
    (hrest : rest = [] ∨ ∃ r2, rest = ' ' :: r2) :
    explicit_location_lex_one (t ++ rest) lang b = .ok (some (t, rest)) := by
  obtain ⟨hne, hplain, hkw, hop⟩ := goodToken_unpack hg
  obtain ⟨c, t2, rfl⟩ : ∃ c t2, t = c :: t2 := by
    cases t with
    | nil => exact absurd rfl hne
    | cons c t2 => exact ⟨c, t2, rfl⟩
  have hc := hplain c (List.mem_cons_self c t2)
  have hq : ¬(c ∈ linespec_quote_characters) := by
    intro hmem
    have : c = '"' ∨ c = '\'' := by simpa [linespec_quote_characters] using hmem
    rcases this with rfl | rfl <;> exact absurd hc (by decide)
  have hpm : ¬(c = '-' ∨ c = '+') := by
    rintro (rfl | rfl) <;> exact absurd hc (by decide)
  have hborder : rest = [] ∨ ∃ x xs, rest = x :: xs ∧ c_isdigit x = false := by
    rcases hrest with rfl | ⟨r2, rfl⟩
    · exact Or.inl rfl
    · exact Or.inr ⟨' ', r2, rfl, by decide⟩
  rw [show (c :: t2) ++ rest = c :: (t2 ++ rest) from rfl]
  by_cases hall : ∀ x ∈ (c :: t2), c_isdigit x = true
  · have htake : (c :: (t2 ++ rest)).takeWhile c_isdigit = c :: t2 := by
      rw [show c :: (t2 ++ rest) = (c :: t2) ++ rest from rfl]
      exact takeWhile_append_all hall hborder
    have hdrop2 : (c :: (t2 ++ rest)).drop (c :: t2).length = rest := by
      rw [show c :: (t2 ++ rest) = (c :: t2) ++ rest from rfl]
      exact List.drop_left (c :: t2) rest
    rcases hrest with rfl | ⟨r2, rfl⟩
    · simp only [explicit_location_lex_one, if_neg hq, if_neg hpm, htake, hdrop2]
    · simp only [explicit_location_lex_one, if_neg hq, if_neg hpm, htake, hdrop2]
      rw [if_pos (show (c_isspace ' ' || (' ' == ',')) = true by decide)]
  · -- some character of the token is not a digit: the symbol loop runs
    have htp : (c :: t2).takeWhile c_isdigit ≠ c :: t2 := by
      intro hEq
      exact hall (List.takeWhile_eq_self_iff.mp hEq)
    have htlen : ((c :: t2).takeWhile c_isdigit).length < (c :: t2).length := by
      have hle := (List.takeWhile_prefix (l := c :: t2) c_isdigit).length_le
      rcases Nat.lt_or_ge ((c :: t2).takeWhile c_isdigit).length (c :: t2).length with
        h | h
      · exact h
      · exact absurd ((List.takeWhile_prefix c_isdigit).eq_of_length (by omega)) htp
    have htake : (c :: (t2 ++ rest)).takeWhile c_isdigit =
        (c :: t2).takeWhile c_isdigit := by
      rw [show c :: (t2 ++ rest) = (c :: t2) ++ rest from rfl, List.takeWhile_append]
      rw [if_neg (by omega)]
    have hdecomp : (c :: t2).drop ((c :: t2).takeWhile c_isdigit).length =
        (c :: t2).dropWhile c_isdigit := drop_takeWhile_eq_dropWhile c_isdigit (c :: t2)
    rcases hdw : (c :: t2).dropWhile c_isdigit with _ | ⟨x, xs⟩
    · exfalso
      have hlen0 := congrArg List.length hdecomp
      rw [hdw, List.length_drop] at hlen0
      simp only [List.length_nil] at hlen0
      omega
    · have hxdig : c_isdigit x = false := dropWhile_head_false hdw
      have hx : x ∈ c :: t2 := by
        have hmem : x ∈ (c :: t2).dropWhile c_isdigit := by
          rw [hdw]
          exact List.mem_cons_self x xs
        exact (List.dropWhile_sublist c_isdigit).subset hmem
      have hxp := hplain x hx
      have hxsp : c_isspace x = false := plain_not_space hxp
      have hxc : (x == ',') = false := plain_bne hxp (by decide)
      have hdropx : (c :: (t2 ++ rest)).drop
          ((c :: (t2 ++ rest)).takeWhile c_isdigit).length = x :: (xs ++ rest) := by
        rw [htake, show c :: (t2 ++ rest) = (c :: t2) ++ rest from rfl,
          List.drop_append_of_le_length (le_of_lt htlen), hdecomp, hdw]
        rfl
      have hsym : lex_one_sym_go lang (c :: (t2 ++ rest)).length (c :: (t2 ++ rest)) =
          (c :: t2).length := by
        exact sym_go_exact lang hplain hkw hop hrest ((c :: t2) ++ rest).length
          (c :: t2) (List.suffix_refl _) (by rw [List.length_append]; omega)
      have htakeN : (c :: (t2 ++ rest)).take ((c :: t2).length) = c :: t2 := by
        rw [show c :: (t2 ++ rest) = (c :: t2) ++ rest from rfl]
        exact List.take_left _ _
      have hdropN : (c :: (t2 ++ rest)).drop ((c :: t2).length) = rest := by
        rw [show c :: (t2 ++ rest) = (c :: t2) ++ rest from rfl]
        exact List.drop_left _ _
      simp only [explicit_location_lex_one, if_neg hq, if_neg hpm, hdropx, hxsp, hxc,
        Bool.or_self, Bool.false_eq_true, if_false, hsym, htakeN, hdropN]
      rw [if_pos (by simp)]

/-- Unfolding lemma for the scanner in the quoted state. -/
theorem ftc_go_cons_some (tgt c : Char) (r : Str) (q : Char) (i : Nat) :
    find_toplevel_char_go tgt (c :: r) (some q) i =
      if c = q then find_toplevel_char_go tgt r none (i + 1)
      else if c = '\\' then
        (match r with
         | [] => none
         | _ :: r2 => find_toplevel_char_go tgt r2 (some q) (i + 2))
      else find_toplevel_char_go tgt r (some q) (i + 1) := by
  cases r <;> rfl

/-- Unfolding lemma for the scanner in the unquoted state. -/
theorem ftc_go_cons_none (tgt c : Char) (r : Str) (i : Nat) :
    find_toplevel_char_go tgt (c :: r) none i =
      if c = tgt then some i
      else if c = '"' ∨ c = '\'' then find_toplevel_char_go tgt r (some c) (i + 1)
      else find_toplevel_char_go tgt r none (i + 1) := by
  cases r <;> rfl

/-- The quote-aware scanner finds nothing when the delimiter is absent. -/
theorem ftc_go_none {tgt : Char} :
    ∀ (n : Nat) (s : Str), s.length ≤ n → tgt ∉ s →
      ∀ (st : Option Char) (i : Nat), find_toplevel_char_go tgt s st i = none := by
  intro n
  induction n with
  | zero =>
    intro s hn hmem st i
    have : s = [] := List.length_eq_zero.mp (by omega)
    subst this
    cases st <;> rfl
  | succ m ih =>
    intro s hn hmem st i
    cases s with
    | nil => cases st <;> rfl
    | cons c r =>
      have hct : ¬(c = tgt) := fun hE => hmem (hE ▸ List.mem_cons_self c r)
      have hrt : tgt ∉ r := fun hE => hmem (List.mem_cons_of_mem c hE)
      have hrn : r.length ≤ m := by
        simp at hn
        omega
      cases st with
      | some q =>
        rw [ftc_go_cons_some]
        by_cases hcq : c = q
        · rw [if_pos hcq]
          exact ih r hrn hrt none (i + 1)
        · rw [if_neg hcq]
          by_cases hcb : c = '\\'
          · rw [if_pos hcb]
            cases r with
            | nil => rfl
            | cons d r2 =>
              exact ih r2 (by simp at hrn; omega)
                (fun hE => hrt (List.mem_cons_of_mem d hE)) (some q) (i + 2)
          · rw [if_neg hcb]
            exact ih r hrn hrt (some q) (i + 1)
      | none =>
        rw [ftc_go_cons_none]
        rw [if_neg hct]
        by_cases hcq : c = '"' ∨ c = '\''
        · rw [if_pos hcq]
          exact ih r hrn hrt (some c) (i + 1)
        · rw [if_neg hcq]
          exact ih r hrn hrt none (i + 1)

/-- find_toplevel_char finds nothing when the delimiter is absent. -/
theorem ftc_none {s : Str} {tgt : Char} (h : tgt ∉ s) :
    find_toplevel_char s tgt = none :=
  ftc_go_none s.length s le_rfl h none 0

/-- Over a prefix free of the delimiter and of quotes, the scanner finds the
delimiter right at the end of the prefix. -/
theorem ftc_go_first {tgt : Char} :
    ∀ (pre suf : Str) (i : Nat),
      (∀ c ∈ pre, ¬(c = tgt) ∧ ¬(c = '"' ∨ c = '\'')) →
      find_toplevel_char_go tgt (pre ++ tgt :: suf) none i = some (i + pre.length) := by
  intro pre
  induction pre with
  | nil =>
    intro suf i h
    rw [List.nil_append, ftc_go_cons_none, if_pos rfl]
    simp
  | cons a pre ih =>
    intro suf i h
    obtain ⟨ha1, ha2⟩ := h a (List.mem_cons_self a pre)
    rw [List.cons_append, ftc_go_cons_none, if_neg ha1, if_neg ha2]
    refine (ih suf (i + 1) (fun c hc => h c (List.mem_cons_of_mem a hc))).trans ?_
    simp
    omega

/-- find_toplevel_char over token-then-delimiter text. -/
theorem ftc_first {pre suf : Str} {tgt : Char}
    (h : ∀ c ∈ pre, ¬(c = tgt) ∧ ¬(c = '"' ∨ c = '\'')) :
    find_toplevel_char (pre ++ tgt :: suf) tgt = some pre.length := by
  have := ftc_go_first pre suf 0 h
  simpa [find_toplevel_char] using this

/-- No linespec keyword starts with a character other than i or t. -/
theorem lex_kw_cons_false {c : Char} {r : Str} (hc : ¬(c = 'i') ∧ ¬(c = 't')) :
    linespec_lexer_lex_keyword (c :: r) = false := by
  rw [linespec_lexer_lex_keyword, List.any_eq_false]
  intro kw hm
  have h1 : ('i' == c) = false := by
    cases hE : 'i' == c with
    | false => rfl
    | true => exact absurd (eq_of_beq hE).symm hc.1
  have h2 : ('t' == c) = false := by
    cases hE : 't' == c with
    | false => rfl
    | true => exact absurd (eq_of_beq hE).symm hc.2
  simp only [linespec_keywords, List.mem_cons, List.not_mem_nil, or_false] at hm
  rcases hm with rfl | rfl | rfl <;>
    simp [kwMatch, List.isPrefixOf, h1, h2]

/-- The character right after an appended token. -/
theorem char_at_append_end {t : Str} {x : Char} (r : Str) :
    char_at (t ++ x :: r) t.length = some x := by
  rw [char_at, List.get?_append_right le_rfl]
  simp

/-- The character at an index inside the left part of an append. -/
theorem char_at_append_left {t r : Str} {m : Nat} (hm : m < t.length) :
    char_at (t ++ r) m = t.get? m := by
  rw [char_at]
  exact List.get?_append hm

/-- The backward space walk of is_cp_operator steps back over the single
space after a token of plain characters and stops on the token. -/
theorem back_skip_token {t r2 : Str} (hne : t ≠ [])
    (hplain : ∀ c ∈ t, plainChar c = true) :
    back_skip_space (t ++ ' ' :: r2) 0 (t.length + 1) = t.length := by
  have hat : char_at_isspace (t ++ ' ' :: r2) t.length = true := by
    rw [char_at_isspace, char_at_append_end]
    decide
  obtain ⟨m, hm⟩ : ∃ m, t.length = m + 1 := by
    cases t with
    | nil => exact absurd rfl hne
    | cons a u => exact ⟨u.length, by simp⟩
  rw [back_skip_space, if_pos (by rw [hat]; simp)]
  rw [hm, back_skip_space]
  have hat2 : char_at_isspace (t ++ ' ' :: r2) m = false := by
    cases hE : t.get? m with
    | none => exact absurd (List.get?_eq_none.1 hE) (by omega)
    | some c =>
      rw [char_at_isspace, char_at_append_left (by omega), hE]
      exact plain_not_space (hplain c (List.get?_mem hE))
  rw [if_neg (by simp [hat2])]

/-- Position right after a token of plain characters that does not end in the
operator keyword: not a C++ operator occurrence. -/
theorem is_cp_token_false {t r2 : Str} (hne : t ≠ [])
    (hplain : ∀ c ∈ t, plainChar c = true) (hop : ¬(cp_operator_str <:+ t)) :
    is_cp_operator (t ++ ' ' :: r2) 0 (some (t.length + 1)) = false := by
  simp only [is_cp_operator]
  by_cases h8 : cp_operator_str.length + 0 ≤ t.length + 1
  · rw [if_pos h8, back_skip_token hne hplain]
    by_cases h8b : cp_operator_str.length + 0 ≤ t.length
    · rw [if_pos h8b]
      have hops : cp_operator_str.length = 8 := by decide
      have hseg : (((t ++ ' ' :: r2).drop (t.length - cp_operator_str.length)).take
          cp_operator_str.length) = t.drop (t.length - cp_operator_str.length) := by
        rw [List.drop_append_of_le_length (by omega),
          List.take_append_of_le_length (by rw [List.length_drop]; omega),
          List.take_of_length_le (by rw [List.length_drop]; omega)]
      have hne2 : t.drop (t.length - cp_operator_str.length) ≠ cp_operator_str := by
        intro hE
        exact hop (hE ▸ List.drop_suffix _ t)
      rw [hseg, beq_eq_false_iff_ne.2 hne2, Bool.false_and]
    · rw [if_neg h8b]
  · rw [if_neg h8]

/-- skip_op_false_positives leaves an absent position absent. -/
theorem skip_op_none (s : Str) (tgt : Char) :
    skip_op_false_positives s none tgt = none := by
  rw [skip_op_false_positives]
  rfl

/-- skip_op_false_positives keeps a position that is not an operator
occurrence. -/
theorem skip_op_clean {s : Str} {b : Nat} {tgt : Char}
    (h : is_cp_operator s 0 (some b) = false) :
    skip_op_false_positives s (some b) tgt = some b := by
  rw [skip_op_false_positives]
  rw [skip_op_false_positives_go]
  simp only [h, Bool.false_eq_true, if_false]

/-- first_of with no second position. -/
theorem first_of_some_none (x : Nat) : first_of (some x) none = some x := rfl

/-- first_of keeps the first position when it is not later. -/
theorem first_of_some_some {x y : Nat} (h : ¬(y < x)) :
    first_of (some x) (some y) = some x := by
  simp only [first_of]
  rw [if_neg h]

/-- The whitespace keyword scan never answers before its base index. -/
theorem func_ws_scan_ge : ∀ (fuel : Nat) (t : Str) (base w : Nat),
    func_ws_scan fuel t base = some w → base ≤ w := by
  intro fuel
  induction fuel with
  | zero =>
    intro t base w h
    simp [func_ws_scan] at h
  | succ n ih =>
    intro t base w h
    rw [func_ws_scan] at h
    cases hf : find_toplevel_char t ' ' with
    | none => rw [hf] at h; exact absurd h (by simp)
    | some i =>
      rw [hf] at h
      have h2 : (if linespec_lexer_lex_keyword (t.drop (i + 1)) = true then
          some (base + i) else func_ws_scan n (t.drop (i + 1)) (base + i + 1)) =
          some w := h
      by_cases hk : linespec_lexer_lex_keyword (t.drop (i + 1)) = true
      · rw [if_pos hk] at h2
        have : base + i = w := by
          injection h2
        omega
      · rw [if_neg hk] at h2
        have := ih (t.drop (i + 1)) (base + i + 1) w h2
        omega

/-- The whitespace keyword scan over a plain token followed by a space and an
option-like tail: any answer lies past the token. -/
theorem func_ws_scan_token {t : Str} (rest2 : Str)
    (hplain : ∀ c ∈ t, plainChar c = true) :
    func_ws_scan ((t ++ ' ' :: '-' :: rest2).length + 1)
        (t ++ ' ' :: '-' :: rest2) 0 = none ∨
      ∃ w, func_ws_scan ((t ++ ' ' :: '-' :: rest2).length + 1)
          (t ++ ' ' :: '-' :: rest2) 0 = some w ∧ t.length + 1 ≤ w := by
  have hfind : find_toplevel_char (t ++ ' ' :: '-' :: rest2) ' ' = some t.length := by
    refine ftc_first ?_
    intro c hc
    refine ⟨plain_ne (hplain c hc) (by decide), ?_⟩
    rintro (rfl | rfl) <;> exact (plain_ne (hplain _ hc) (by decide)) rfl
  have hdrop : (t ++ ' ' :: '-' :: rest2).drop (t.length + 1) = '-' :: rest2 := by
    have h1 : t ++ ' ' :: '-' :: rest2 = (t ++ [' ']) ++ '-' :: rest2 := by simp
    rw [h1, show t.length + 1 = (t ++ [' ']).length from by simp]
    exact List.drop_left _ _
  have hkw : linespec_lexer_lex_keyword ('-' :: rest2) = false :=
    lex_kw_cons_false ⟨by decide, by decide⟩
  rw [func_ws_scan, hfind]
  have hred : (match some t.length with
      | none => (none : Option Nat)
      | some i =>
        if linespec_lexer_lex_keyword ((t ++ ' ' :: '-' :: rest2).drop (i + 1)) = true
        then some (0 + i)
        else func_ws_scan (t ++ ' ' :: '-' :: rest2).length
          ((t ++ ' ' :: '-' :: rest2).drop (i + 1)) (0 + i + 1)) =
      func_ws_scan (t ++ ' ' :: '-' :: rest2).length ('-' :: rest2) (0 + t.length + 1) := by
    show (if linespec_lexer_lex_keyword ((t ++ ' ' :: '-' :: rest2).drop (t.length + 1)) = true
        then some (0 + t.length)
        else func_ws_scan (t ++ ' ' :: '-' :: rest2).length
          ((t ++ ' ' :: '-' :: rest2).drop (t.length + 1)) (0 + t.length + 1)) = _
    rw [hdrop, hkw]
    simp
  rw [hred]
  cases hres : func_ws_scan (t ++ ' ' :: '-' :: rest2).length ('-' :: rest2)
      (0 + t.length + 1) with
  | none => exact Or.inl rfl
  | some w =>
    refine Or.inr ⟨w, rfl, ?_⟩
    have := func_ws_scan_ge _ _ _ _ hres
    omega

/-- The trailing trim steps back over a space. -/
theorem trim_idx_step {s : Str} {n : Nat} (hc : char_at s n = some ' ') :
    trim_trailing_space_idx s (n + 1) = trim_trailing_space_idx s n := by
  rw [trim_trailing_space_idx]
  rw [if_pos (by rw [hc]; decide)]

/-- The trailing trim stops on a non-space character. -/
theorem trim_idx_stop {s : Str} {m : Nat} {c : Char}
    (hc : char_at s m = some c) (hcs : c ≠ ' ') :
    trim_trailing_space_idx s (m + 1) = m + 1 := by
  rw [trim_trailing_space_idx]
  rw [if_neg (by rw [hc]; simp [hcs])]

/-- Trimming from just past the separating space after a plain token ends at
the token length. -/
theorem trim_token_sep {t r2 : Str} (hne : t ≠ [])
    (hplain : ∀ c ∈ t, plainChar c = true) :
    trim_trailing_space_idx (t ++ ' ' :: r2) (t.length + 1) = t.length := by
  have h1 : char_at (t ++ ' ' :: r2) t.length = some ' ' := char_at_append_end r2
  rw [trim_idx_step h1]
  obtain ⟨m, hm⟩ : ∃ m, t.length = m + 1 := by
    cases t with
    | nil => exact absurd rfl hne
    | cons a u => exact ⟨u.length, by simp⟩
  cases hE : t.get? m with
  | none => exact absurd (List.get?_eq_none.1 hE) (by omega)
  | some c =>
    have hc : char_at (t ++ ' ' :: r2) m = some c := by
      rw [char_at_append_left (by omega)]
      exact hE
    rw [hm]
    exact trim_idx_stop hc (plain_ne (hplain c (List.get?_mem hE)) (by decide))

/-- Trimming from the end of a plain token keeps the token length. -/
theorem trim_token_end {t : Str} (hne : t ≠ [])
    (hplain : ∀ c ∈ t, plainChar c = true) (r : Str) :
    trim_trailing_space_idx (t ++ r) t.length = t.length := by
  obtain ⟨m, hm⟩ : ∃ m, t.length = m + 1 := by
    cases t with
    | nil => exact absurd rfl hne
    | cons a u => exact ⟨u.length, by simp⟩
  cases hE : t.get? m with
  | none => exact absurd (List.get?_eq_none.1 hE) (by omega)
  | some c =>
    have hc : char_at (t ++ r) m = some c := by
      rw [char_at_append_left (by omega)]
      exact hE
    rw [hm]
    exact trim_idx_stop hc (plain_ne (hplain c (List.get?_mem hE)) (by decide))

/-- The function-name end position of a bare good token is its length. -/
theorem lofe_nil {t : Str} (hg : goodToken t = true) :
    lex_one_function_end t = t.length := by
  obtain ⟨hne, hplain, hkw, hop⟩ := goodToken_unpack hg
  have hnotin : ∀ d : Char, d.toNat < 46 → d ∉ t := by
    intro d hd hmem
    exact (plain_ne (hplain d hmem) hd) rfl
  have hcomma : find_toplevel_char t ',' = none := ftc_none (hnotin ',' (by decide))
  have hhyphen : find_toplevel_char t '-' = none := ftc_none (hnotin '-' (by decide))
  have hws : find_toplevel_char t ' ' = none := ftc_none (hnotin ' ' (by decide))
  have hhead : ¬(t.head? = some '-') := by
    intro hE
    cases t with
    | nil => simp at hE
    | cons a u =>
      have ha : a = '-' := by
        simpa using hE
      exact (plain_ne (hplain a (List.mem_cons_self a u)) (by decide)) ha
  have hscan : func_ws_scan (t.length + 1) t 0 = none := by
    rw [func_ws_scan, hws]
  simp only [lex_one_function_end]
  rw [if_neg hhead, hcomma, hhyphen, hscan]
  simp only [skip_op_none, first_of]
  obtain ⟨m, hm⟩ : ∃ m, t.length = m + 1 := by
    cases t with
    | nil => exact absurd rfl hne
    | cons a u => exact ⟨u.length, by simp⟩
  cases hE : t.get? m with
  | none => exact absurd (List.get?_eq_none.1 hE) (by omega)
  | some c =>
    have hc : char_at t m = some c := hE
    rw [hm]
    exact trim_idx_stop hc (plain_ne (hplain c (List.get?_mem hE)) (by decide))

/-- The function-name end position of a good token followed by a space and a
further option is the token length. -/
theorem lofe_sep {t r2 : Str} (hg : goodToken t = true)
    (hcr : ',' ∉ (' ' :: '-' :: r2)) :
    lex_one_function_end (t ++ ' ' :: '-' :: r2) = t.length := by
  obtain ⟨hne, hplain, hkw, hop⟩ := goodToken_unpack hg
  have hcomma : find_toplevel_char (t ++ ' ' :: '-' :: r2) ',' = none := by
    refine ftc_none ?_
    intro hm
    rcases List.mem_append.1 hm with hm | hm
    · exact (plain_ne (hplain _ hm) (by decide)) rfl
    · exact hcr hm
  have hhead : ¬((t ++ ' ' :: '-' :: r2).head? = some '-') := by
    intro hE
    cases t with
    | nil => exact absurd rfl hne
    | cons a u =>
      have ha : a = '-' := by
        simpa using hE
      exact (plain_ne (hplain a (List.mem_cons_self a u)) (by decide)) ha
  have hhyphen : find_toplevel_char (t ++ ' ' :: '-' :: r2) '-' = some (t.length + 1) := by
    have h1 : t ++ ' ' :: '-' :: r2 = (t ++ [' ']) ++ '-' :: r2 := by simp
    rw [h1]
    have hcond : ∀ c ∈ t ++ [' '], ¬(c = '-') ∧ ¬(c = '"' ∨ c = '\'') := by
      intro c hc
      rcases List.mem_append.1 hc with hc | hc
      · refine ⟨plain_ne (hplain c hc) (by decide), ?_⟩
        rintro (rfl | rfl) <;> exact (plain_ne (hplain _ hc) (by decide)) rfl
      · have hcs : c = ' ' := by simpa using hc
        subst hcs
        exact ⟨by decide, by decide⟩
    have h2 : find_toplevel_char ((t ++ [' ']) ++ '-' :: r2) '-' =
        some (t ++ [' ']).length := ftc_first hcond
    rw [h2]
    simp
  have hisop : is_cp_operator (t ++ ' ' :: '-' :: r2) 0 (some (t.length + 1)) = false :=
    is_cp_token_false hne hplain hop
  have hscan := func_ws_scan_token r2 hplain
  simp only [lex_one_function_end]
  rw [if_neg hhead, hcomma, hhyphen, skip_op_none, skip_op_clean hisop,
    first_of_some_none]
  rcases hscan with hws | ⟨w, hws, hwge⟩
  · rw [hws]
    exact trim_token_sep hne hplain
  · rw [hws]
    have he2 : first_of (some (t.length + 1)) (some (w + 1)) = some (t.length + 1) :=
      first_of_some_some (by omega)
    have hred : (match (match some w with
        | some w => first_of (some (t.length + 1)) (some (w + 1))
        | none => some (t.length + 1) : Option Nat) with
        | some e => e
        | none => (t ++ ' ' :: '-' :: r2).length) = t.length + 1 := by
      show (match first_of (some (t.length + 1)) (some (w + 1)) with
        | some e => e
        | none => (t ++ ' ' :: '-' :: r2).length) = t.length + 1
      rw [he2]
    rw [hred]
    exact trim_token_sep hne hplain

/-- The function-name lexer consumes exactly a good token when the following
text is empty or a space and a further option. -/
theorem lex_one_function_good {t rest : Str} {lang : Language} {b : Bool}
    (hg : goodToken t = true)
    (hrest : rest = [] ∨ ∃ r2, rest = ' ' :: '-' :: r2 ∧ ',' ∉ rest) :
    explicit_location_lex_one_function (t ++ rest) lang b = .ok (some (t, rest)) := by
  obtain ⟨hne, hplain, hkw, hop⟩ := goodToken_unpack hg
  obtain ⟨c, t2, rfl⟩ : ∃ c t2, t = c :: t2 := by
    cases t with
    | nil => exact absurd rfl hne
    | cons c t2 => exact ⟨c, t2, rfl⟩
  have hc := hplain c (List.mem_cons_self c t2)
  have hq : ¬(c ∈ linespec_quote_characters ∧
      ¬(lang = .ada ∧ c = '"' ∧ is_ada_operator (c :: (t2 ++ rest)))) := by
    rintro ⟨hmem, -⟩
    have : c = '"' ∨ c = '\'' := by simpa [linespec_quote_characters] using hmem
    rcases this with rfl | rfl <;> exact absurd hc (by decide)
  have hlofe : lex_one_function_end (c :: (t2 ++ rest)) = (c :: t2).length := by
    rw [show c :: (t2 ++ rest) = (c :: t2) ++ rest from rfl]
    rcases hrest with rfl | ⟨r2, rfl, hcr⟩
    · rw [List.append_nil]
      exact lofe_nil hg
    · exact lofe_sep hg hcr
  have htakeN : (c :: (t2 ++ rest)).take ((c :: t2).length) = c :: t2 := by
    rw [show c :: (t2 ++ rest) = (c :: t2) ++ rest from rfl]
    exact List.take_left _ _
  have hdropN : (c :: (t2 ++ rest)).drop ((c :: t2).length) = rest := by
    rw [show c :: (t2 ++ rest) = (c :: t2) ++ rest from rfl]
    exact List.drop_left _ _
  rw [show (c :: t2) ++ rest = c :: (t2 ++ rest) from rfl]
  simp only [explicit_location_lex_one_function, if_neg hq, hlofe, htakeN, hdropN]
  rw [if_pos (by simp)]

/-- skip_spaces consumes a leading space. -/
theorem skip_spaces_space (s : Str) : skip_spaces (' ' :: s) = skip_spaces s := by
  rw [skip_spaces, skip_spaces, List.dropWhile_cons, if_pos (by decide)]

/-- skip_spaces stops at a non-space head. -/
theorem skip_spaces_nospace {c : Char} {s : Str} (h : c_isspace c = false) :
    skip_spaces (c :: s) = c :: s := by
  rw [skip_spaces, List.dropWhile_cons, if_neg (by simp [h])]

/-- The option-value lexer on a sign-headed token of non-space non-comma
characters: the whole token is consumed. -/
theorem lex_one_sign {c : Char} {t rest : Str} {lang : Language} {b : Bool}
    (hc : c = '-' ∨ c = '+')
    (hoch : ∀ x ∈ t, (x == ',') = false ∧ c_isspace x = false)
    (hrest : rest = [] ∨ ∃ r2, rest = ' ' :: r2) :
    explicit_location_lex_one ((c :: t) ++ rest) lang b = .ok (some (c :: t, rest)) := by
  have hq : ¬(c ∈ linespec_quote_characters) := by
    intro hmem
    have h2 : c = '"' ∨ c = '\'' := by simpa [linespec_quote_characters] using hmem
    rcases hc with rfl | rfl <;> rcases h2 with h2 | h2 <;> exact absurd h2 (by decide)
  have hall : ∀ x ∈ c :: t, (!(x == ',') && !(c_isspace x)) = true := by
    intro x hx
    rcases List.mem_cons.1 hx with rfl | hx
    · rcases hc with rfl | rfl <;> decide
    · obtain ⟨h1, h2⟩ := hoch x hx
      rw [h1, h2]
      rfl
  have hborder : rest = [] ∨ ∃ x xs, rest = x :: xs ∧
      (!(x == ',') && !(c_isspace x)) = false := by
    rcases hrest with rfl | ⟨r2, rfl⟩
    · exact Or.inl rfl
    · exact Or.inr ⟨' ', r2, rfl, by decide⟩
  have htake : (c :: (t ++ rest)).takeWhile (fun x => !(x == ',') && !(c_isspace x)) =
      c :: t := by
    rw [show c :: (t ++ rest) = (c :: t) ++ rest from rfl]
    exact takeWhile_append_all hall hborder
  have hdrop2 : (c :: (t ++ rest)).drop (c :: t).length = rest := by
    rw [show c :: (t ++ rest) = (c :: t) ++ rest from rfl]
    exact List.drop_left _ _
  rw [show (c :: t) ++ rest = c :: (t ++ rest) from rfl]
  simp only [explicit_location_lex_one, if_neg hq, if_pos hc, htake, hdrop2]

/-- The option-value lexer on an all-digit token: the whole token is
consumed. -/
theorem lex_one_digits {t rest : Str} {lang : Language} {b : Bool}
    (hne : t ≠ []) (hall : ∀ x ∈ t, c_isdigit x = true)
    (hrest : rest = [] ∨ ∃ r2, rest = ' ' :: r2) :
    explicit_location_lex_one (t ++ rest) lang b = .ok (some (t, rest)) := by
  obtain ⟨c, t2, rfl⟩ : ∃ c t2, t = c :: t2 := by
    cases t with
    | nil => exact absurd rfl hne
    | cons c t2 => exact ⟨c, t2, rfl⟩
  have hc := hall c (List.mem_cons_self c t2)
  have hq : ¬(c ∈ linespec_quote_characters) := by
    intro hmem
    have h2 : c = '"' ∨ c = '\'' := by simpa [linespec_quote_characters] using hmem
    rcases h2 with rfl | rfl <;> exact absurd hc (by decide)
  have hpm : ¬(c = '-' ∨ c = '+') := by
    rintro (rfl | rfl) <;> exact absurd hc (by decide)
  have hborder : rest = [] ∨ ∃ x xs, rest = x :: xs ∧ c_isdigit x = false := by
    rcases hrest with rfl | ⟨r2, rfl⟩
    · exact Or.inl rfl
    · exact Or.inr ⟨' ', r2, rfl, by decide⟩
  have htake : (c :: (t2 ++ rest)).takeWhile c_isdigit = c :: t2 := by
    rw [show c :: (t2 ++ rest) = (c :: t2) ++ rest from rfl]
    exact takeWhile_append_all hall hborder
  have hdrop2 : (c :: (t2 ++ rest)).drop (c :: t2).length = rest := by
    rw [show c :: (t2 ++ rest) = (c :: t2) ++ rest from rfl]
    exact List.drop_left (c :: t2) rest
  rw [show (c :: t2) ++ rest = c :: (t2 ++ rest) from rfl]
  rcases hrest with rfl | ⟨r2, rfl⟩
  · simp only [explicit_location_lex_one, if_neg hq, if_neg hpm, htake, hdrop2]
  · simp only [explicit_location_lex_one, if_neg hq, if_neg hpm, htake, hdrop2]
    rw [if_pos (show (c_isspace ' ' || (' ' == ',')) = true by decide)]

/-- Decimal digit characters are C digits. -/
theorem digitChar_isdigit {d : Nat} (hd : d < 10) : c_isdigit (digitChar d) = true := by
  interval_cases d <;> decide

/-- A digit is neither a comma nor whitespace. -/
theorem digit_no_comma_space {c : Char} (h : c_isdigit c = true) :
    (c == ',') = false ∧ c_isspace c = false := by
  simp only [c_isdigit, Bool.and_eq_true, decide_eq_true_eq] at h
  constructor
  · cases hE : c == ',' with
    | false => rfl
    | true =>
      have : c = ',' := eq_of_beq hE
      rw [this] at h
      exact absurd h (by decide)
  · simp only [c_isspace, Bool.or_eq_false_iff, Bool.and_eq_false_iff,
      decide_eq_false_iff_not]
    omega

/-- The decimal rendering is never empty. -/
theorem natToStr_ne_nil (n : Nat) : natToStr n ≠ [] := by
  rw [natToStr]
  by_cases h : n = 0
  · rw [if_pos h]
    simp
  · rw [if_neg h]
    intro hE
    have h2 : Nat.digits 10 n = [] := by
      have h3 := congrArg List.length hE
      simp only [List.length_reverse, List.length_map, List.length_nil] at h3
      exact List.length_eq_zero.1 h3
    exact h (Nat.digits_eq_nil_iff_eq_zero.1 h2)

/-- The decimal rendering consists of digits. -/
theorem natToStr_digits {n : Nat} : ∀ c ∈ natToStr n, c_isdigit c = true := by
  intro c hc
  rw [natToStr] at hc
  by_cases h : n = 0
  · rw [if_pos h] at hc
    have : c = '0' := by simpa using hc
    rw [this]
    decide
  · rw [if_neg h, List.mem_reverse] at hc
    obtain ⟨d, hd, rfl⟩ := List.mem_map.1 hc
    exact digitChar_isdigit (Nat.digits_lt_base (by norm_num) hd)

/-- atoi inverts the decimal rendering. -/
theorem atoi_natToStr (n : Nat) : atoiNat (natToStr n) = n := by
  rw [atoiNat]
  have htw : (natToStr n).takeWhile c_isdigit = natToStr n :=
    List.takeWhile_eq_self_iff.2 (fun c hc => natToStr_digits c hc)
  rw [htw, natToStr]
  by_cases h : n = 0
  · rw [if_pos h, h]
    decide
  · rw [if_neg h, List.foldl_reverse, List.foldr_map]
    have hcong : ∀ (l : List Nat), (∀ d ∈ l, d < 10) →
        l.foldr (fun d a => 10 * a + ((digitChar d).toNat - 48)) 0 =
          l.foldr (fun d a => d + 10 * a) 0 := by
      intro l hl
      induction l with
      | nil => rfl
      | cons d l ih =>
        simp only [List.foldr_cons]
        rw [ih (fun d hd => hl d (List.mem_cons_of_mem _ hd))]
        have hd10 : d < 10 := hl d (List.mem_cons_self _ _)
        have hdc : (digitChar d).toNat - 48 = d := by
          interval_cases d <;> decide
        omega
    rw [hcong _ (fun d hd => Nat.digits_lt_base (by norm_num) hd)]
    have hof := Nat.ofDigits_digits 10 n
    rw [Nat.ofDigits_eq_foldr] at hof
    simpa using hof

/-- linespec_parse_line_offset on a plus-signed token. -/
theorem parse_line_plus (r : Str) :
    linespec_parse_line_offset ('+' :: r) = ⟨atoiNat r, .plus⟩ := rfl

/-- linespec_parse_line_offset on a minus-signed token. -/
theorem parse_line_minus (r : Str) :
    linespec_parse_line_offset ('-' :: r) = ⟨atoiNat r, .minus⟩ := rfl

/-- linespec_parse_line_offset on an unsigned token. -/
theorem parse_line_other {c : Char} (r : Str) (h1 : ¬(c = '+')) (h2 : ¬(c = '-')) :
    linespec_parse_line_offset (c :: r) = ⟨atoiNat (c :: r), .none_⟩ := by
  simp only [linespec_parse_line_offset]
  split
  · rename_i r2 heq
    injection heq with hc hr
    exact absurd hc h1
  · rename_i r2 heq
    injection heq with hc hr
    exact absurd hc h2
  · rfl

/-- Every rendered piece starts with a hyphen. -/
theorem piece_head (p : RPiece) : ∃ r, pieceStr p = '-' :: r := by
  cases p with
  | src s => exact ⟨_, rfl⟩
  | fn full f =>
    cases full with
    | true => exact ⟨_, rfl⟩
    | false => exact ⟨_, rfl⟩
  | lbl l => exact ⟨_, rfl⟩
  | lin sg k => exact ⟨_, rfl⟩

/-- Rendered pieces are at least two characters long. -/
theorem pieceStr_len2 (p : RPiece) : 2 ≤ (pieceStr p).length := by
  cases p with
  | src s => simp [pieceStr]
  | fn full f =>
    cases full <;> simp [pieceStr]
  | lbl l => simp [pieceStr]
  | lin sg k => simp [pieceStr]

/-- No comma occurs in a well-formed rendered piece. -/
theorem pieceStr_no_comma {p : RPiece} (hp : pieceWF p = true) :
    ',' ∉ pieceStr p := by
  intro hmem
  cases p with
  | src s =>
    rcases List.mem_append.1 hmem with h | h
    · exact absurd h (by decide)
    · obtain ⟨-, hplain, -, -⟩ := goodToken_unpack hp
      exact (plain_ne (hplain _ h) (by decide)) rfl
  | fn full f =>
    obtain ⟨-, hplain, -, -⟩ := goodToken_unpack hp
    rcases List.mem_append.1 hmem with h | h
    · rcases List.mem_append.1 h with h | h
      · cases full with
        | true => exact absurd h (by decide)
        | false => exact absurd h (by decide)
      · exact absurd h (by decide)
    · exact (plain_ne (hplain _ h) (by decide)) rfl
  | lbl l =>
    rcases List.mem_append.1 hmem with h | h
    · exact absurd h (by decide)
    · obtain ⟨-, hplain, -, -⟩ := goodToken_unpack hp
      exact (plain_ne (hplain _ h) (by decide)) rfl
  | lin sg k =>
    rcases List.mem_append.1 hmem with h | h
    · rcases List.mem_append.1 h with h | h
      · exact absurd h (by decide)
      · cases sg <;> exact absurd h (by decide)
    · have hd := natToStr_digits ',' h
      exact absurd hd (by decide)

/-- Unfolding of joinSep on a two-or-more element list. -/
theorem joinSep_cons_cons (c : Char) (x y : Str) (ys : List Str) :
    joinSep c (x :: y :: ys) = x ++ c :: joinSep c (y :: ys) := rfl

/-- Every character of a separator-joined list is the separator or comes from
one of the strings. -/
theorem joinSep_mem {c x : Char} :
    ∀ {xs : List Str}, x ∈ joinSep c xs → x = c ∨ ∃ l ∈ xs, x ∈ l := by
  intro xs
  induction xs with
  | nil =>
    intro h
    simp [joinSep] at h
  | cons y ys ih =>
    cases ys with
    | nil =>
      intro h
      rw [joinSep] at h
      exact Or.inr ⟨y, List.mem_cons_self _ _, h⟩
    | cons z zs =>
      intro h
      rw [joinSep_cons_cons] at h
      rcases List.mem_append.1 h with h | h
      · exact Or.inr ⟨y, List.mem_cons_self _ _, h⟩
      · rcases List.mem_cons.1 h with rfl | h
        · exact Or.inl rfl
        · rcases ih h with h | ⟨l, hl, hx⟩
          · exact Or.inl h
          · exact Or.inr ⟨l, List.mem_cons_of_mem _ hl, hx⟩

/-- No comma occurs in the space-joined rendering of well-formed pieces. -/
theorem joinSep_pieces_no_comma {ps : List RPiece}
    (hps : ∀ p ∈ ps, pieceWF p = true) :
    ',' ∉ joinSep ' ' (ps.map pieceStr) := by
  intro hmem
  rcases joinSep_mem hmem with h | ⟨l, hl, hx⟩
  · exact absurd h (by decide)
  · obtain ⟨p, hp, rfl⟩ := List.mem_map.1 hl
    exact pieceStr_no_comma (hps p hp) hx

/-- A separator-joined cons extends its head string. -/
theorem joinSep_cons (c : Char) (x : Str) (xs : List Str) :
    ∃ r, joinSep c (x :: xs) = x ++ r := by
  cases xs with
  | nil => exact ⟨[], by rw [joinSep, List.append_nil]⟩
  | cons z zs => exact ⟨_, rfl⟩

/-- The space-joined rendering of a nonempty piece list starts with a
hyphen. -/
theorem joinSep_pieces_shape (p : RPiece) (ps : List RPiece) :
    ∃ r, joinSep ' ' ((p :: ps).map pieceStr) = '-' :: r := by
  obtain ⟨r0, hr0⟩ := piece_head p
  obtain ⟨r1, hr1⟩ := joinSep_cons ' ' (pieceStr p) (ps.map pieceStr)
  rw [List.map_cons, hr1, hr0]
  exact ⟨r0 ++ r1, rfl⟩

/-- A length budget for the piece loop: two loop steps per piece fit inside
the rendered length. -/
theorem joinSep_pieces_len :
    ∀ (ps : List RPiece), 2 * ps.length ≤ (joinSep ' ' (ps.map pieceStr)).length := by
  intro ps
  induction ps with
  | nil => simp [joinSep]
  | cons p ps ih =>
    cases ps with
    | nil =>
      have := pieceStr_len2 p
      simp only [List.map_cons, List.map_nil, joinSep, List.length_cons,
        List.length_nil]
      omega
    | cons q qs =>
      have h2 := pieceStr_len2 p
      rw [List.map_cons, List.map_cons, joinSep_cons_cons, List.length_append,
        List.length_cons]
      rw [List.map_cons] at ih
      simp only [List.length_cons] at ih ⊢
      omega

/-- The explicit-location entry guard accepts text starting with any rendered
piece. -/
theorem stel_guard_piece (p : RPiece) (r : Str) :
    stel_guard (pieceStr p ++ r) = true := by
  cases p with
  | src s => rfl
  | fn full f => cases full <;> rfl
  | lbl l => rfl
  | lin sg k => rfl

/-- No linespec keyword matches at the start of a rendered piece. -/
theorem kw_false_piece (p : RPiece) (r : Str) :
    linespec_lexer_lex_keyword (pieceStr p ++ r) = false := by
  obtain ⟨r0, hr0⟩ := piece_head p
  rw [hr0, List.cons_append]
  exact lex_kw_cons_false ⟨by decide, by decide⟩

/-- The loop-head stop conditions reject no option-shaped text. -/
theorem kw_false_opt (u X : Str) :
    linespec_lexer_lex_keyword (('-' :: u) ++ X) = false := by
  rw [List.cons_append]
  exact lex_kw_cons_false ⟨by decide, by decide⟩

/-- One loop step over a rendered -source piece. -/
theorem stel_step_src {lang : Language} {name rest : Str} {loc : ExplicitLoc}
    (hg : goodToken name = true)
    (hrest : rest = [] ∨ ∃ r2, rest = ' ' :: '-' :: r2) :
    stel_step lang false ("-source ".toList ++ name ++ rest) loc =
      .cont { loc with source_filename := some name } (skip_spaces rest) := by
  obtain ⟨hne, hplain, -, -⟩ := goodToken_unpack hg
  have hrest2 : rest = [] ∨ ∃ r2, rest = ' ' :: r2 := by
    rcases hrest with rfl | ⟨r2, rfl⟩
    · exact Or.inl rfl
    · exact Or.inr ⟨'-' :: r2, rfl⟩
  have hform : "-source ".toList ++ name ++ rest =
      ('-' :: "source".toList) ++ (' ' :: (name ++ rest)) := by
    simp
  rw [hform]
  have hc1 : ((('-' :: "source".toList) ++ (' ' :: (name ++ rest))).isEmpty ||
      ((('-' :: "source".toList) ++ (' ' :: (name ++ rest))).head? == some ',')) =
      false := rfl
  have hkw := kw_false_opt "source".toList (' ' :: (name ++ rest))
  have hlex : explicit_location_lex_one
      (('-' :: "source".toList) ++ (' ' :: (name ++ rest))) lang false =
      .ok (some ('-' :: "source".toList, ' ' :: (name ++ rest))) :=
    lex_one_sign (Or.inl rfl) (by decide) (Or.inr ⟨name ++ rest, rfl⟩)
  have hskip : skip_spaces (' ' :: (name ++ rest)) = name ++ rest := by
    rw [skip_spaces_space]
    obtain ⟨c, t2, rfl⟩ : ∃ c t2, name = c :: t2 := by
      cases name with
      | nil => exact absurd rfl hne
      | cons c t2 => exact ⟨c, t2, rfl⟩
    rw [List.cons_append]
    exact skip_spaces_nospace (plain_not_space (hplain c (List.mem_cons_self c t2)))
  have hmatch : optMatch ('-' :: "source".toList) opt_source = true := by decide
  have harg : explicit_location_lex_one (name ++ rest) lang false =
      .ok (some (name, rest)) := lex_one_good hg hrest2
  simp only [stel_step, hc1, hkw, hlex, hskip, hmatch, harg, Bool.false_eq_true,
    if_false, if_true, Option.isNone_some, Bool.false_and]
  rfl

/-- One loop step over a rendered -function piece (without -qualified). -/
theorem stel_step_fn {lang : Language} {name rest : Str} {loc : ExplicitLoc}
    (hg : goodToken name = true)
    (hrest : rest = [] ∨ ∃ r2, rest = ' ' :: '-' :: r2 ∧ ',' ∉ rest) :
    stel_step lang false ("-function ".toList ++ name ++ rest) loc =
      .cont { loc with function_name := some name } (skip_spaces rest) := by
  obtain ⟨hne, hplain, -, -⟩ := goodToken_unpack hg
  have hform : "-function ".toList ++ name ++ rest =
      ('-' :: "function".toList) ++ (' ' :: (name ++ rest)) := by
    simp
  rw [hform]
  have hc1 : ((('-' :: "function".toList) ++ (' ' :: (name ++ rest))).isEmpty ||
      ((('-' :: "function".toList) ++ (' ' :: (name ++ rest))).head? == some ',')) =
      false := rfl
  have hkw := kw_false_opt "function".toList (' ' :: (name ++ rest))
  have hlex : explicit_location_lex_one
      (('-' :: "function".toList) ++ (' ' :: (name ++ rest))) lang false =
      .ok (some ('-' :: "function".toList, ' ' :: (name ++ rest))) :=
    lex_one_sign (Or.inl rfl) (by decide) (Or.inr ⟨name ++ rest, rfl⟩)
  have hskip : skip_spaces (' ' :: (name ++ rest)) = name ++ rest := by
    rw [skip_spaces_space]
    obtain ⟨c, t2, rfl⟩ : ∃ c t2, name = c :: t2 := by
      cases name with
      | nil => exact absurd rfl hne
      | cons c t2 => exact ⟨c, t2, rfl⟩
    rw [List.cons_append]
    exact skip_spaces_nospace (plain_not_space (hplain c (List.mem_cons_self c t2)))
  have hnm1 : optMatch ('-' :: "function".toList) opt_source = false := by decide
  have hmatch : optMatch ('-' :: "function".toList) opt_function = true := by decide
  have harg : explicit_location_lex_one_function (name ++ rest) lang false =
      .ok (some (name, rest)) := lex_one_function_good hg hrest
  simp only [stel_step, hc1, hkw, hlex, hskip, hnm1, hmatch, harg,
    Bool.false_eq_true, if_false, if_true, Option.isNone_some, Bool.false_and]
  rfl

/-- One loop step over a rendered -label piece. -/
theorem stel_step_lbl {lang : Language} {name rest : Str} {loc : ExplicitLoc}
    (hg : goodToken name = true)
    (hrest : rest = [] ∨ ∃ r2, rest = ' ' :: '-' :: r2) :
    stel_step lang false ("-label ".toList ++ name ++ rest) loc =
      .cont { loc with label_name := some name } (skip_spaces rest) := by
  obtain ⟨hne, hplain, -, -⟩ := goodToken_unpack hg
  have hrest2 : rest = [] ∨ ∃ r2, rest = ' ' :: r2 := by
    rcases hrest with rfl | ⟨r2, rfl⟩
    · exact Or.inl rfl
    · exact Or.inr ⟨'-' :: r2, rfl⟩
  have hform : "-label ".toList ++ name ++ rest =
      ('-' :: "label".toList) ++ (' ' :: (name ++ rest)) := by
    simp
  rw [hform]
  have hc1 : ((('-' :: "label".toList) ++ (' ' :: (name ++ rest))).isEmpty ||
      ((('-' :: "label".toList) ++ (' ' :: (name ++ rest))).head? == some ',')) =
      false := rfl
  have hkw := kw_false_opt "label".toList (' ' :: (name ++ rest))
  have hlex : explicit_location_lex_one
      (('-' :: "label".toList) ++ (' ' :: (name ++ rest))) lang false =
      .ok (some ('-' :: "label".toList, ' ' :: (name ++ rest))) :=
    lex_one_sign (Or.inl rfl) (by decide) (Or.inr ⟨name ++ rest, rfl⟩)
  have hskip : skip_spaces (' ' :: (name ++ rest)) = name ++ rest := by
    rw [skip_spaces_space]
    obtain ⟨c, t2, rfl⟩ : ∃ c t2, name = c :: t2 := by
      cases name with
      | nil => exact absurd rfl hne
      | cons c t2 => exact ⟨c, t2, rfl⟩
    rw [List.cons_append]
    exact skip_spaces_nospace (plain_not_space (hplain c (List.mem_cons_self c t2)))
  have hnm1 : optMatch ('-' :: "label".toList) opt_source = false := by decide
  have hnm2 : optMatch ('-' :: "label".toList) opt_function = false := by decide
  have hnm3 : optMatch ('-' :: "label".toList) opt_qualified = false := by decide
  have hnm4 : optMatch ('-' :: "label".toList) opt_line = false := by decide
  have hmatch : optMatch ('-' :: "label".toList) opt_label = true := by decide
  have harg : explicit_location_lex_one (name ++ rest) lang false =
      .ok (some (name, rest)) := lex_one_good hg hrest2
  simp only [stel_step, hc1, hkw, hlex, hskip, hnm1, hnm2, hnm3, hnm4, hmatch,
    harg, Bool.false_eq_true, if_false, if_true, Option.isNone_some,
    Bool.false_and]
  rfl

/-- One loop step over a rendered -line piece with a pre-lexed argument
token. -/
theorem stel_step_lin_tok {lang : Language} {T rest : Str} {loc : ExplicitLoc}
    {lo : LineOffset}
    (hlexT : explicit_location_lex_one (T ++ rest) lang false = .ok (some (T, rest)))
    (hparse : linespec_parse_line_offset T = lo)
    (hThead : ∀ c r, T = c :: r → c_isspace c = false) (hTne : T ≠ []) :
    stel_step lang false ("-line ".toList ++ T ++ rest) loc =
      .cont { loc with line_offset := lo } (skip_spaces rest) := by
  have hform : "-line ".toList ++ T ++ rest =
      ('-' :: "line".toList) ++ (' ' :: (T ++ rest)) := by
    simp
  rw [hform]
  have hc1 : ((('-' :: "line".toList) ++ (' ' :: (T ++ rest))).isEmpty ||
      ((('-' :: "line".toList) ++ (' ' :: (T ++ rest))).head? == some ',')) =
      false := rfl
  have hkw := kw_false_opt "line".toList (' ' :: (T ++ rest))
  have hlex : explicit_location_lex_one
      (('-' :: "line".toList) ++ (' ' :: (T ++ rest))) lang false =
      .ok (some ('-' :: "line".toList, ' ' :: (T ++ rest))) :=
    lex_one_sign (Or.inl rfl) (by decide) (Or.inr ⟨T ++ rest, rfl⟩)
  have hskip : skip_spaces (' ' :: (T ++ rest)) = T ++ rest := by
    rw [skip_spaces_space]
    obtain ⟨c, t2, rfl⟩ : ∃ c t2, T = c :: t2 := by
      cases T with
      | nil => exact absurd rfl hTne
      | cons c t2 => exact ⟨c, t2, rfl⟩
    rw [List.cons_append]
    exact skip_spaces_nospace (hThead c t2 rfl)
  have hnm1 : optMatch ('-' :: "line".toList) opt_source = false := by decide
  have hnm2 : optMatch ('-' :: "line".toList) opt_function = false := by decide
  have hnm3 : optMatch ('-' :: "line".toList) opt_qualified = false := by decide
  have hmatch : optMatch ('-' :: "line".toList) opt_line = true := by decide
  simp only [stel_step, hc1, hkw, hlex, hskip, hnm1, hnm2, hnm3, hmatch, hlexT,
    hparse, Bool.false_eq_true, if_false, if_true]

/-- One loop step over a rendered -line piece. -/
theorem stel_step_lin {lang : Language} {sg : LineOffsetSign} {k : Nat}
    {rest : Str} {loc : ExplicitLoc} (hsg : ¬(sg = .unknown))
    (hrest : rest = [] ∨ ∃ r2, rest = ' ' :: r2) :
    stel_step lang false
        ("-line ".toList ++ (lineSignStr sg ++ natToStr k) ++ rest) loc =
      .cont { loc with line_offset := ⟨k, sg⟩ } (skip_spaces rest) := by
  have hdig : ∀ x ∈ natToStr k, (x == ',') = false ∧ c_isspace x = false :=
    fun x hx => digit_no_comma_space (natToStr_digits x hx)
  cases sg with
  | unknown => exact absurd rfl hsg
  | plus =>
    refine stel_step_lin_tok ?_ ?_ ?_ ?_
    · exact lex_one_sign (Or.inr rfl) hdig hrest
    · rw [show lineSignStr .plus ++ natToStr k = '+' :: natToStr k from rfl,
        parse_line_plus, atoi_natToStr]
    · intro c r hcr
      have : c = '+' := by
        have := congrArg List.head? hcr
        simpa [lineSignStr] using this.symm
      rw [this]
      rfl
    · simp [lineSignStr]
  | minus =>
    refine stel_step_lin_tok ?_ ?_ ?_ ?_
    · exact lex_one_sign (Or.inl rfl) hdig hrest
    · rw [show lineSignStr .minus ++ natToStr k = '-' :: natToStr k from rfl,
        parse_line_minus, atoi_natToStr]
    · intro c r hcr
      have : c = '-' := by
        have := congrArg List.head? hcr
        simpa [lineSignStr] using this.symm
      rw [this]
      rfl
    · simp [lineSignStr]
  | none_ =>
    have hT : lineSignStr .none_ ++ natToStr k = natToStr k := by
      simp [lineSignStr]
    rw [hT]
    obtain ⟨c, t2, hck⟩ : ∃ c t2, natToStr k = c :: t2 := by
      cases hE : natToStr k with
      | nil => exact absurd hE (natToStr_ne_nil k)
      | cons c t2 => exact ⟨c, t2, rfl⟩
    have hmem : c ∈ natToStr k := by
      rw [hck]
      exact List.mem_cons_self c t2
    have hcd : c_isdigit c = true := natToStr_digits c hmem
    refine stel_step_lin_tok ?_ ?_ ?_ ?_
    · exact lex_one_digits (natToStr_ne_nil k) (fun x hx => natToStr_digits x hx) hrest
    · rw [hck]
      rw [parse_line_other t2 ?_ ?_, hck.symm, atoi_natToStr]
      · intro hE
        rw [hE] at hcd
        exact absurd hcd (by decide)
      · intro hE
        rw [hE] at hcd
        exact absurd hcd (by decide)
    · intro c2 r2 hcr
      rw [hck] at hcr
      injection hcr with h1 h2
      rw [← h1]
      exact (digit_no_comma_space hcd).2
    · exact natToStr_ne_nil k

/-- One loop step over the -qualified flag of a rendered function piece. -/
theorem stel_step_qualified {lang : Language} {c : Char} {r : Str}
    {loc : ExplicitLoc} (hc : c_isspace c = false) :
    stel_step lang false ("-qualified ".toList ++ (c :: r)) loc =
      .cont { loc with func_name_match_type := .full } (c :: r) := by
  have hform : "-qualified ".toList ++ (c :: r) =
      ('-' :: "qualified".toList) ++ (' ' :: (c :: r)) := by
    simp
  rw [hform]
  have hc1 : ((('-' :: "qualified".toList) ++ (' ' :: (c :: r))).isEmpty ||
      ((('-' :: "qualified".toList) ++ (' ' :: (c :: r))).head? == some ',')) =
      false := rfl
  have hkw := kw_false_opt "qualified".toList (' ' :: (c :: r))
  have hlex : explicit_location_lex_one
      (('-' :: "qualified".toList) ++ (' ' :: (c :: r))) lang false =
      .ok (some ('-' :: "qualified".toList, ' ' :: (c :: r))) :=
    lex_one_sign (Or.inl rfl) (by decide) (Or.inr ⟨c :: r, rfl⟩)
  have hskip : skip_spaces (' ' :: (c :: r)) = c :: r := by
    rw [skip_spaces_space]
    exact skip_spaces_nospace hc
  have hskip2 : skip_spaces (c :: r) = c :: r := skip_spaces_nospace hc
  have hnm1 : optMatch ('-' :: "qualified".toList) opt_source = false := by decide
  have hnm2 : optMatch ('-' :: "qualified".toList) opt_function = false := by decide
  have hmatch : optMatch ('-' :: "qualified".toList) opt_qualified = true := by decide
  simp only [stel_step, hc1, hkw, hlex, hskip, hskip2, hnm1, hnm2, hmatch,
    Bool.false_eq_true, if_false, if_true]

/-- Unfolding of joinSep on a singleton. -/
theorem joinSep_single (c : Char) (x : Str) : joinSep c [x] = x := rfl

/-- The option loop consumes a space-joined list of well-formed rendered
pieces completely, applying each piece's field update in order. -/
theorem stel_loop_pieces {lang : Language} :
    ∀ (ps : List RPiece) (fuel : Nat) (loc : ExplicitLoc),
      (∀ p ∈ ps, pieceWF p = true) → 2 * ps.length < fuel →
      stel_loop lang false fuel (joinSep ' ' (ps.map pieceStr)) loc =
        .ok (applyPieces loc ps, []) := by
  intro ps
  induction ps with
  | nil =>
    intro fuel loc hwf hfuel
    obtain ⟨fl, rfl⟩ : ∃ fl, fuel = fl + 1 := ⟨fuel - 1, by omega⟩
    rw [show joinSep ' ' (List.map pieceStr []) = [] from rfl, stel_loop]
    rfl
  | cons p ps ih =>
    intro fuel loc hwf hfuel
    have hpwf : pieceWF p = true := hwf p (List.mem_cons_self _ _)
    have hpswf : ∀ q ∈ ps, pieceWF q = true :=
      fun q hq => hwf q (List.mem_cons_of_mem _ hq)
    obtain ⟨rest, hjoin, hshape, hcomma, hskipr⟩ :
        ∃ rest, joinSep ' ' ((p :: ps).map pieceStr) = pieceStr p ++ rest ∧
          (rest = [] ∨ ∃ r2, rest = ' ' :: '-' :: r2) ∧ (',' ∉ rest) ∧
          skip_spaces rest = joinSep ' ' (ps.map pieceStr) := by
      cases ps with
      | nil =>
        refine ⟨[], ?_, Or.inl rfl, by simp, rfl⟩
        rw [List.map_cons, List.map_nil, joinSep_single, List.append_nil]
      | cons q qs =>
        obtain ⟨r0, hr0⟩ := joinSep_pieces_shape q qs
        refine ⟨' ' :: joinSep ' ' ((q :: qs).map pieceStr), ?_, ?_, ?_, ?_⟩
        · rw [List.map_cons, List.map_cons, joinSep_cons_cons]
        · exact Or.inr ⟨r0, by rw [hr0]⟩
        · intro hmem
          rcases List.mem_cons.1 hmem with h | h
          · exact absurd h (by decide)
          · exact joinSep_pieces_no_comma hpswf h
        · rw [skip_spaces_space, hr0]
          exact skip_spaces_nospace (by decide)
    have hshape2 : rest = [] ∨ ∃ r2, rest = ' ' :: '-' :: r2 ∧ ',' ∉ rest := by
      rcases hshape with rfl | ⟨r2, rfl⟩
      · exact Or.inl rfl
      · exact Or.inr ⟨r2, rfl, hcomma⟩
    have hshape3 : rest = [] ∨ ∃ r2, rest = ' ' :: r2 := by
      rcases hshape with rfl | ⟨r2, rfl⟩
      · exact Or.inl rfl
      · exact Or.inr ⟨'-' :: r2, rfl⟩
    obtain ⟨fl, rfl⟩ : ∃ fl, fuel = fl + 1 := ⟨fuel - 1, by omega⟩
    rw [hjoin, stel_loop]
    simp only [List.length_cons] at hfuel
    cases p with
    | src name =>
      have hg : goodToken name = true := hpwf
      rw [show pieceStr (RPiece.src name) ++ rest =
        "-source ".toList ++ name ++ rest from rfl, stel_step_src hg hshape,
        hskipr]
      exact ih fl _ hpswf (by omega)
    | lbl name =>
      have hg : goodToken name = true := hpwf
      rw [show pieceStr (RPiece.lbl name) ++ rest =
        "-label ".toList ++ name ++ rest from rfl, stel_step_lbl hg hshape,
        hskipr]
      exact ih fl _ hpswf (by omega)
    | lin sg k =>
      have hsg : ¬(sg = LineOffsetSign.unknown) := by
        have h2 : pieceWF (RPiece.lin sg k) = true := hpwf
        rw [pieceWF] at h2
        simpa using h2
      rw [show pieceStr (RPiece.lin sg k) ++ rest =
        "-line ".toList ++ (lineSignStr sg ++ natToStr k) ++ rest from rfl,
        stel_step_lin hsg hshape3, hskipr]
      exact ih fl _ hpswf (by omega)
    | fn full name =>
      have hg : goodToken name = true := hpwf
      cases full with
      | false =>
        rw [show pieceStr (RPiece.fn false name) ++ rest =
          "-function ".toList ++ name ++ rest from by simp [pieceStr],
          stel_step_fn hg hshape2, hskipr]
        exact ih fl _ hpswf (by omega)
      | true =>
        rw [show pieceStr (RPiece.fn true name) ++ rest =
          "-qualified ".toList ++ ('-' :: ("function ".toList ++ name ++ rest))
          from rfl,
          stel_step_qualified (show c_isspace '-' = false from by decide)]
        obtain ⟨f2, rfl⟩ : ∃ f2, fl = f2 + 1 := ⟨fl - 1, by omega⟩
        show stel_loop lang false (f2 + 1)
            ("-function ".toList ++ name ++ rest)
            { loc with func_name_match_type := MatchType.full } =
          Except.ok (applyPieces loc (RPiece.fn true name :: ps), [])
        rw [stel_loop, stel_step_fn hg hshape2, hskipr]
        exact ih f2 _ hpswf (by omega)

/-- The spec-order field list of the explicit rendering form is exactly the
rendering of the piece decomposition. -/
theorem fields_spec_map (l : ExplicitLoc) :
    explicit_fields_spec false l = (piecesOf l).map pieceStr := by
  obtain ⟨s, f, b, ⟨off, sg⟩, mt⟩ := l
  cases s <;> cases f <;> cases b <;> cases sg <;>
    simp [explicit_fields_spec, piecesOf, pieceStr, lineSignStr]

/-- Replaying the piece decomposition of a well-formed explicit location over
the initial explicit location rebuilds it exactly. -/
theorem applyPieces_piecesOf {l : ExplicitLoc} (h : explicitWF l = true) :
    applyPieces initialize_explicit_location (piecesOf l) = l := by
  obtain ⟨s, f, b, ⟨off, sg⟩, mt⟩ := l
  cases s <;> cases f <;> cases b <;> cases mt <;> cases sg <;>
    simp_all [piecesOf, applyPieces, applyPiece, initialize_explicit_location,
      explicitWF, explicit_empty_p]

/-- The components of explicit-location well-formedness. -/
theorem explicitWF_unpack {l : ExplicitLoc} (h : explicitWF l = true) :
    (∀ t, l.source_filename = some t → goodToken t = true) ∧
    (∀ t, l.function_name = some t → goodToken t = true) ∧
    (∀ t, l.label_name = some t → goodToken t = true) ∧
    explicit_empty_p l = false ∧
    (l.source_filename.isSome = true →
      (l.function_name.isSome || l.label_name.isSome ||
        !(l.line_offset.sign == LineOffsetSign.unknown)) = true) ∧
    (l.func_name_match_type = .full → l.function_name.isSome = true) ∧
    (l.line_offset.sign = .unknown → l.line_offset.offset = 0) := by
  simp only [explicitWF, Bool.and_eq_true] at h
  obtain ⟨⟨⟨⟨⟨⟨h1, h2⟩, h3⟩, h4⟩, h5⟩, h6⟩, h7⟩ := h
  refine ⟨?_, ?_, ?_, ?_, ?_, ?_, ?_⟩
  · intro t ht
    rw [ht] at h1
    exact h1
  · intro t ht
    rw [ht] at h2
    exact h2
  · intro t ht
    rw [ht] at h3
    exact h3
  · simpa using h4
  · intro hs
    rw [hs] at h5
    simpa using h5
  · intro hmt
    rw [hmt] at h6
    simpa using h6
  · intro hsg
    rw [hsg] at h7
    have h8 : (l.line_offset.offset == 0) = true := by simpa using h7
    simpa using h8

/-- The pieces of a well-formed explicit location are well-formed. -/
theorem piecesOf_WF {l : ExplicitLoc} (h : explicitWF l = true) :
    ∀ p ∈ piecesOf l, pieceWF p = true := by
  obtain ⟨hsrc, hfn, hlbl, -, -, -, -⟩ := explicitWF_unpack h
  intro p hp
  rw [piecesOf] at hp
  rcases List.mem_append.1 hp with hp | hp
  · rcases List.mem_append.1 hp with hp | hp
    · rcases List.mem_append.1 hp with hp | hp
      · cases hE : l.source_filename with
        | none => rw [hE] at hp; simp at hp
        | some t =>
          rw [hE] at hp
          have : p = RPiece.src t := by simpa using hp
          rw [this]
          exact hsrc t hE
      · cases hE : l.function_name with
        | none => rw [hE] at hp; simp at hp
        | some t =>
          rw [hE] at hp
          have : p = RPiece.fn (l.func_name_match_type = .full) t := by
            simpa using hp
          rw [this]
          exact hfn t hE
    · cases hE : l.label_name with
      | none => rw [hE] at hp; simp at hp
      | some t =>
        rw [hE] at hp
        have : p = RPiece.lbl t := by simpa using hp
        rw [this]
        exact hlbl t hE
  · by_cases hE : l.line_offset.sign = .unknown
    · rw [if_pos hE] at hp
      simp at hp
    · rw [if_neg hE] at hp
      have : p = RPiece.lin l.line_offset.sign l.line_offset.offset := by
        simpa using hp
      rw [this, pieceWF]
      simpa using hE

/-- A well-formed explicit location renders at least one piece. -/
theorem piecesOf_ne_nil {l : ExplicitLoc} (h : explicitWF l = true) :
    piecesOf l ≠ [] := by
  obtain ⟨s, f, b, ⟨off, sg⟩, mt⟩ := l
  intro hE
  cases s <;> cases f <;> cases b <;> cases sg <;>
    simp_all [piecesOf, explicitWF, explicit_empty_p]

/-- The components of linespec well-formedness. -/
theorem linespecWF_unpack {lang : Language} {t : Str}
    (h : linespecWF lang t = true) :
    (∃ c r, t = c :: r ∧ ¬(c = '-') ∧ ¬(c = '*') ∧ (c == ',') = false ∧
      c_isspace c = false) ∧
    remove_trailing_whitespace t = t ∧
    linespec_lex_to_end t = t.length ∧
    (∃ tok rest, explicit_location_lex_one t lang false = .ok (some (tok, rest)) ∧
      tok ≠ [] ∧ (tok.head? == some '-') = false) := by
  simp only [linespecWF, Bool.and_eq_true] at h
  obtain ⟨⟨⟨⟨h1, h2⟩, h3⟩, h4⟩, h5⟩ := h
  refine ⟨?_, ?_, ?_, ?_⟩
  · cases t with
    | nil => simp at h2
    | cons c r =>
      have h2b : (!(c == '-') && !(c == '*') && !(c == ',') && !(c == '"') &&
          !(c == '\'') && !(c_isspace c)) = true := h2
      simp only [Bool.and_eq_true, Bool.not_eq_true'] at h2b
      obtain ⟨⟨⟨⟨⟨ham, has⟩, hacm⟩, haq⟩, haq2⟩, hasp⟩ := h2b
      refine ⟨c, r, rfl, ?_, ?_, hacm, hasp⟩
      · intro hE
        rw [hE] at ham
        simp at ham
      · intro hE
        rw [hE] at has
        simp at has
  · exact eq_of_beq h3
  · have := eq_of_beq h4
    simpa using this
  · cases hE : explicit_location_lex_one t lang false with
    | error e => rw [hE] at h5; simp at h5
    | ok r =>
      cases r with
      | none => rw [hE] at h5; simp at h5
      | some pr =>
        obtain ⟨tok, rest⟩ := pr
        rw [hE] at h5
        have h6 : (!tok.isEmpty && !(tok.head? == some '-')) = true := h5
        simp only [Bool.and_eq_true, Bool.not_eq_true'] at h6
        refine ⟨tok, rest, rfl, ?_, h6.2⟩
        intro hnil
        rw [hnil] at h6
        simp at h6

/-- The explicit-location guard rejects text not starting with a hyphen. -/
theorem stel_guard_false_head {c : Char} {r : Str} (hc : ¬(c = '-')) :
    stel_guard (c :: r) = false := by
  have hE : (c == '-') = false := by
    cases hE2 : c == '-' with
    | false => rfl
    | true => exact absurd (eq_of_beq hE2) hc
  cases r with
  | nil => rfl
  | cons d r2 =>
    simp only [stel_guard]
    rw [hE, Bool.false_and]

/-- Probe syntax never matches text not starting with a hyphen. -/
theorem probe_matches_false_head {c : Char} {e : Str} (hc : ¬(c = '-')) :
    probe_linespec_matches (c :: e) = false := by
  have hE : ('-' == c) = false := by
    cases hE2 : '-' == c with
    | false => rfl
    | true => exact absurd (eq_of_beq hE2).symm hc
  rw [probe_linespec_matches, List.any_eq_false]
  intro pre hmem
  rcases (by simpa [probe_prefixes] using hmem :
      pre = "-probe".toList ∨ pre = "-pstap".toList ∨ pre = "-pdtrace".toList) with
    rfl | rfl | rfl <;>
    · intro hP
      simp only [List.isPrefixOf] at hP
      rw [hE] at hP
      simp at hP

/-- A probe linespec starts with the reserved -p prefix. -/
theorem probe_matches_shape {P : Str} (h : probe_linespec_matches P = true) :
    ∃ r, P = '-' :: 'p' :: r := by
  rw [probe_linespec_matches, List.any_eq_true] at h
  obtain ⟨pre, hmem, hpref⟩ := h
  obtain ⟨suf, hsuf⟩ := List.isPrefixOf_iff_prefix.1 hpref
  rcases (by simpa [probe_prefixes] using hmem :
      pre = "-probe".toList ∨ pre = "-pstap".toList ∨ pre = "-pdtrace".toList) with
    rfl | rfl | rfl <;> exact ⟨_, by rw [← hsuf]; rfl⟩

/-- Text fully consumed by the linespec tokenizer starts with no keyword. -/
theorem kw_false_of_lex_to_end {t : Str} (hne : t ≠ [])
    (h : linespec_lex_to_end t = t.length) :
    linespec_lexer_lex_keyword t = false := by
  cases t with
  | nil => exact absurd rfl hne
  | cons c r =>
    cases hk : linespec_lexer_lex_keyword (c :: r) with
    | false => rfl
    | true =>
      exfalso
      rw [linespec_lex_to_end, lex_to_end_go] at h
      rw [hk] at h
      simp at h

/-- A token not starting with a hyphen never prefix-matches an option name. -/
theorem optMatch_hyphen_false {tok o2 : Str} (hne : tok ≠ [])
    (hhd : (tok.head? == some '-') = false) :
    optMatch tok ('-' :: o2) = false := by
  cases hE : optMatch tok ('-' :: o2) with
  | false => rfl
  | true =>
    exfalso
    rw [optMatch] at hE
    have heq := eq_of_beq hE
    obtain ⟨c, t2, rfl⟩ : ∃ c t2, tok = c :: t2 := by
      cases tok with
      | nil => exact absurd rfl hne
      | cons c t2 => exact ⟨c, t2, rfl⟩
    rw [List.length_cons, List.take_succ_cons] at heq
    have hc : c = '-' := by
      have := congrArg List.head? heq
      simpa using this.symm
    rw [hc] at hhd
    simp at hhd

/-- A token not starting with a hyphen is not option-shaped. -/
theorem optInvalidShape_false {c : Char} (t2 : Str) (hc : ¬(c = '-')) :
    optInvalidShape (c :: t2) = false := by
  rw [optInvalidShape]
  · intro heq
    injection heq with h1 h2
    exact absurd h1 hc
  · intro c2 r2 heq
    injection heq with h1 h2
    exact absurd h1 hc

/-- string_to_explicit_location answers no-location when the guard fails. -/
theorem stel_none {s : Str} {lang : Language} {comp : Bool}
    (h : stel_guard s = false) :
    string_to_explicit_location s lang comp = .ok none := by
  rw [string_to_explicit_location, h]
  rfl

/-- The option loop stops and rewinds at a well-formed linespec text. -/
theorem stel_stop {lang : Language} {t : Str} {loc : ExplicitLoc}
    (h : linespecWF lang t = true) :
    stel_step lang false t loc = .done loc t := by
  obtain ⟨⟨c, r, rfl, hcm, hcs, hccm, hcsp⟩, htrim, hlen,
    ⟨tok, rest, hlex, htne, hthd⟩⟩ := linespecWF_unpack h
  have hc1 : (((c :: r).isEmpty || ((c :: r).head? == some ',')) = (c == ',')) :=
    rfl
  have hkw : linespec_lexer_lex_keyword (c :: r) = false :=
    kw_false_of_lex_to_end (by simp) hlen
  have hm1 : optMatch tok opt_source = false := optMatch_hyphen_false htne hthd
  have hm2 : optMatch tok opt_function = false := optMatch_hyphen_false htne hthd
  have hm3 : optMatch tok opt_qualified = false := optMatch_hyphen_false htne hthd
  have hm4 : optMatch tok opt_line = false := optMatch_hyphen_false htne hthd
  have hm5 : optMatch tok opt_label = false := optMatch_hyphen_false htne hthd
  have hshape : optInvalidShape tok = false := by
    obtain ⟨tc, tt, rfl⟩ : ∃ tc tt, tok = tc :: tt := by
      cases tok with
      | nil => exact absurd rfl htne
      | cons tc tt => exact ⟨tc, tt, rfl⟩
    refine optInvalidShape_false tt ?_
    intro hEc
    rw [hEc] at hthd
    simp at hthd
  simp only [stel_step, hc1, hccm, hkw, hlex, hm1, hm2, hm3, hm4, hm5, hshape,
    Bool.false_eq_true, if_false]

/-- Basic resolution of a well-formed linespec text builds the linespec
location carrying the given match type and consumes everything. -/
theorem basic_linespec {lang : Language} {t : Str} {mt : MatchType}
    (h : linespecWF lang t = true) :
    string_to_event_location_basic t lang mt =
      ({ payload := .linespec ⟨mt, some t⟩, as_string := [] }, []) := by
  obtain ⟨⟨c, r, rfl, hcm, hcs, hccm, hcsp⟩, htrim, hlen, -⟩ := linespecWF_unpack h
  have hpm : probe_linespec_matches (c :: r) = false := probe_matches_false_head hcm
  have hstar : ¬((c :: r).head? = some '*') := by
    intro hE
    have h2 : some c = some '*' := hE
    injection h2 with h3
    exact hcs h3
  have hnll : new_linespec_location (c :: r) mt =
      ({ match_type := mt, spec_string := some (c :: r) }, []) := by
    simp only [new_linespec_location, hlen, List.take_length, htrim,
      List.drop_length]
    rw [if_neg (List.cons_ne_nil c r)]
  simp only [string_to_event_location_basic, hpm, Bool.false_eq_true, if_false]
  rw [if_neg hstar, hnll]

/-- Parsing the explicit rendering of a well-formed explicit location yields
that location back, with all input consumed. -/
theorem stel_render {lang : Language} {l : ExplicitLoc} (h : explicitWF l = true) :
    string_to_explicit_location (explicit_location_to_string l) lang false =
      .ok (some (l, [])) := by
  have hrender : explicit_location_to_string l =
      joinSep ' ' ((piecesOf l).map pieceStr) := by
    rw [explicit_location_to_string, explicit_render_eq, fields_spec_map]
    rfl
  obtain ⟨p0, ps0, hps⟩ : ∃ p0 ps0, piecesOf l = p0 :: ps0 := by
    cases hE : piecesOf l with
    | nil => exact absurd hE (piecesOf_ne_nil h)
    | cons a b => exact ⟨a, b, rfl⟩
  have hguard : stel_guard (explicit_location_to_string l) = true := by
    rw [hrender, hps, List.map_cons]
    obtain ⟨r1, hr1⟩ := joinSep_cons ' ' (pieceStr p0) (ps0.map pieceStr)
    rw [hr1]
    exact stel_guard_piece p0 r1
  have hloop : stel_loop lang false
      ((joinSep ' ' ((piecesOf l).map pieceStr)).length + 1)
      (joinSep ' ' ((piecesOf l).map pieceStr)) initialize_explicit_location =
      .ok (applyPieces initialize_explicit_location (piecesOf l), []) := by
    refine stel_loop_pieces (piecesOf l) _ _ (piecesOf_WF h) ?_
    have := joinSep_pieces_len (piecesOf l)
    omega
  have hval : (l.source_filename.isSome && l.function_name.isNone &&
      l.label_name.isNone && (l.line_offset.sign == LineOffsetSign.unknown) &&
      !false) = false := by
    obtain ⟨-, -, -, -, h5, -, -⟩ := explicitWF_unpack h
    cases hs : l.source_filename.isSome with
    | false => simp [hs]
    | true =>
      have h6 := h5 hs
      cases hfn : l.function_name with
      | some v => simp [hfn]
      | none =>
        cases hlb : l.label_name with
        | some v => simp [hlb]
        | none =>
          rw [hfn, hlb] at h6
          simp only [Option.isSome_none, Bool.false_or, Bool.not_eq_true'] at h6
          simp [hfn, hlb, h6]
  rw [string_to_explicit_location, hguard]
  simp only [Bool.not_true, Bool.false_eq_true, if_false]
  rw [hrender, hloop, applyPieces_piecesOf h]
  show (if l.source_filename.isSome && l.function_name.isNone &&
      l.label_name.isNone && (l.line_offset.sign == LineOffsetSign.unknown) &&
      !false then
      (Except.error LocErr.incompleteExplicit : Except LocErr (Option (ExplicitLoc × Str)))
    else .ok (some (l, []))) = .ok (some (l, []))
  simp only [hval, Bool.false_eq_true, if_false]

/-- Parsing -qualified followed by a well-formed linespec text: the loop sets
the FULL match type, then stops and rewinds at the linespec text. -/
theorem stel_qualified_only {lang : Language} {t : Str}
    (h : linespecWF lang t = true) :
    string_to_explicit_location ("-qualified ".toList ++ t) lang false =
      .ok (some ({ initialize_explicit_location with
        func_name_match_type := MatchType.full }, t)) := by
  obtain ⟨⟨c, r, rfl, -, -, -, hcsp⟩, -, -, -⟩ := linespecWF_unpack h
  have hguard : stel_guard ("-qualified ".toList ++ (c :: r)) = true := rfl
  have hloop : stel_loop lang false
      (("-qualified ".toList ++ (c :: r)).length + 1)
      ("-qualified ".toList ++ (c :: r)) initialize_explicit_location =
      .ok ({ initialize_explicit_location with
        func_name_match_type := MatchType.full }, c :: r) := by
    obtain ⟨f2, hf2⟩ : ∃ f2, ("-qualified ".toList ++ (c :: r)).length + 1 =
        f2 + 1 + 1 := by
      refine ⟨("-qualified ".toList ++ (c :: r)).length - 1, ?_⟩
      have h2 : ("-qualified ".toList ++ (c :: r)).length = 11 + (c :: r).length := by
        simp
        omega
      omega
    rw [hf2, stel_loop, stel_step_qualified hcsp]
    show stel_loop lang false (f2 + 1) (c :: r)
        { initialize_explicit_location with func_name_match_type := MatchType.full } =
      .ok ({ initialize_explicit_location with
        func_name_match_type := MatchType.full }, c :: r)
    rw [stel_loop, stel_stop h]
  rw [string_to_explicit_location, hguard]
  simp only [Bool.not_true, Bool.false_eq_true, if_false]
  rw [hloop]
  rfl

/-- C1: Round-trip through rendering.  For every location of each of the four
variants (probe, address, linespec, explicit) as the top-level parser
constructs it from text with no embedded data loss — a probe location caching
its matched probe text, an address location caching the * expression it was
parsed from, a linespec location holding a well-formed spec string under
either match type, and an explicit location with well-formed fields —
re-parsing the rendered string with string_to_event_location and rendering
the result yields the same string. -/
theorem C1_roundtrip (lang : Language) :
    (∀ P : Str, probe_linespec_matches P = true →
      reRender (rendered ⟨.probe, P⟩) lang = .ok (rendered ⟨.probe, P⟩)) ∧
    (∀ (a : Nat) (e : Str), (∀ c ∈ e, isExprChar c = true) →
      reRender (rendered ⟨.address a, '*' :: e⟩) lang =
        .ok (rendered ⟨.address a, '*' :: e⟩)) ∧
    (∀ (mt : MatchType) (t : Str), linespecWF lang t = true →
      reRender (rendered ⟨.linespec ⟨mt, some t⟩, []⟩) lang =
        .ok (rendered ⟨.linespec ⟨mt, some t⟩, []⟩)) ∧
    (∀ el : ExplicitLoc, explicitWF el = true →
      reRender (rendered ⟨.explicitL el, []⟩) lang =
        .ok (rendered ⟨.explicitL el, []⟩)) := by
  refine ⟨?_, ?_, ?_, ?_⟩
  · intro P hP
    obtain ⟨r, rfl⟩ := probe_matches_shape hP
    have hrend : rendered ⟨.probe, '-' :: 'p' :: r⟩ = '-' :: 'p' :: r := by
      rw [rendered, if_neg (by simp)]
    rw [hrend]
    have hguard : stel_guard ('-' :: 'p' :: r) = false := rfl
    have hnone : string_to_explicit_location ('-' :: 'p' :: r) lang false =
        .ok none := stel_none hguard
    have hbasic : string_to_event_location_basic ('-' :: 'p' :: r) lang .wild =
        ({ payload := .probe, as_string := '-' :: 'p' :: r }, []) := by
      simp only [string_to_event_location_basic, hP, if_true]
    have hmain : string_to_event_location ('-' :: 'p' :: r) lang .wild =
        .ok ({ payload := .probe, as_string := '-' :: 'p' :: r }, []) := by
      rw [string_to_event_location, hnone]
      show Except.ok (string_to_event_location_basic ('-' :: 'p' :: r) lang .wild) = _
      rw [hbasic]
    rw [reRender, hmain]
    show Except.ok (rendered ⟨.probe, '-' :: 'p' :: r⟩) =
      Except.ok ('-' :: 'p' :: r)
    rw [hrend]
  · intro a e he
    have hrend : rendered ⟨.address a, '*' :: e⟩ = '*' :: e := by
      rw [rendered, if_neg (by simp)]
    rw [hrend]
    have hguard : stel_guard ('*' :: e) = false := stel_guard_false_head (by decide)
    have hnone : string_to_explicit_location ('*' :: e) lang false = .ok none :=
      stel_none hguard
    have hpm : probe_linespec_matches ('*' :: e) = false :=
      probe_matches_false_head (by decide)
    have htw : e.takeWhile isExprChar = e := List.takeWhile_eq_self_iff.2 he
    have hbasic : string_to_event_location_basic ('*' :: e) lang .wild =
        ({ payload := .address (atoiNat e), as_string := '*' :: e }, []) := by
      simp only [string_to_event_location_basic, hpm, Bool.false_eq_true, if_false]
      rw [if_pos (show ('*' :: e).head? = some '*' from rfl)]
      simp only [linespec_expression_to_pc, htw]
      rw [show (1 : Nat) + e.length = ('*' :: e).length from by
        simp [Nat.add_comm]]
      rw [List.take_length, List.drop_length]
    have hmain : string_to_event_location ('*' :: e) lang .wild =
        .ok ({ payload := .address (atoiNat e), as_string := '*' :: e }, []) := by
      rw [string_to_event_location, hnone]
      show Except.ok (string_to_event_location_basic ('*' :: e) lang .wild) = _
      rw [hbasic]
    rw [reRender, hmain]
    show Except.ok (rendered ⟨.address (atoiNat e), '*' :: e⟩) =
      Except.ok ('*' :: e)
    rw [rendered, if_neg (by simp)]
  · intro mt t hWF
    cases mt with
    | wild =>
      have hrend : rendered ⟨.linespec ⟨.wild, some t⟩, []⟩ = t := by
        rw [rendered, if_pos rfl]
        rfl
      rw [hrend]
      obtain ⟨⟨c, r, ht, hcm, -, -, -⟩, -, -, -⟩ := linespecWF_unpack hWF
      have hguard : stel_guard t = false := by
        rw [ht]
        exact stel_guard_false_head hcm
      have hnone : string_to_explicit_location t lang false = .ok none :=
        stel_none hguard
      have hmain : string_to_event_location t lang .wild =
          .ok ({ payload := .linespec ⟨.wild, some t⟩, as_string := [] }, []) := by
        rw [string_to_event_location, hnone]
        show Except.ok (string_to_event_location_basic t lang .wild) = _
        rw [basic_linespec hWF]
      rw [reRender, hmain]
      show Except.ok (rendered ⟨.linespec ⟨.wild, some t⟩, []⟩) = Except.ok t
      rw [hrend]
    | full =>
      have hrend : rendered ⟨.linespec ⟨.full, some t⟩, []⟩ =
          "-qualified ".toList ++ t := by
        rw [rendered, if_pos rfl]
        rfl
      rw [hrend]
      have hstel : string_to_explicit_location ("-qualified ".toList ++ t)
          lang false = .ok (some ({ initialize_explicit_location with
            func_name_match_type := MatchType.full }, t)) := stel_qualified_only hWF
      have hmain : string_to_event_location ("-qualified ".toList ++ t) lang .wild =
          .ok (string_to_event_location_basic t lang .full) := by
        rw [string_to_event_location, hstel]
        rfl
      rw [reRender, hmain, basic_linespec hWF]
      show Except.ok (rendered ⟨.linespec ⟨.full, some t⟩, []⟩) =
        Except.ok ("-qualified ".toList ++ t)
      rw [hrend]
  · intro el hWF
    obtain ⟨-, -, -, hemp, -, -, -⟩ := explicitWF_unpack hWF
    have hrend : rendered ⟨.explicitL el, []⟩ = explicit_location_to_string el := by
      rw [rendered, if_pos rfl]
      rfl
    rw [hrend]
    have hstel : string_to_explicit_location (explicit_location_to_string el)
        lang false = .ok (some (el, [])) := stel_render hWF
    have hmain : string_to_event_location (explicit_location_to_string el)
        lang .wild = .ok ({ payload := .explicitL el, as_string := [] }, []) := by
      rw [string_to_event_location, hstel]
      show (if !(explicit_empty_p el) then
          (Except.ok ({ payload := .explicitL el, as_string := [] }, []) :
            Except LocErr (EventLocation × Str))
        else .ok (string_to_event_location_basic [] lang
          el.func_name_match_type)) = _
      rw [hemp]
      rfl
    rw [reRender, hmain]
    show Except.ok (rendered ⟨.explicitL el, []⟩) =
      Except.ok (explicit_location_to_string el)
    rw [hrend]

/-- Witness for C1: concrete round trips for all four variants — probe text
-pstap a:b, address *10, the linespec m under the FULL match type, and a full
explicit location with source, qualified function, label and +7 line. -/
theorem C1_roundtrip_witness :
    probe_linespec_matches "-pstap a:b".toList = true ∧
    reRender (rendered ⟨.probe, "-pstap a:b".toList⟩) .other =
      .ok (rendered ⟨.probe, "-pstap a:b".toList⟩) ∧
    (∀ c ∈ "10".toList, isExprChar c = true) ∧
    reRender (rendered ⟨.address 10, '*' :: "10".toList⟩) .other =
      .ok (rendered ⟨.address 10, '*' :: "10".toList⟩) ∧
    linespecWF .other "m".toList = true ∧
    reRender (rendered ⟨.linespec ⟨.full, some "m".toList⟩, []⟩) .other =
      .ok (rendered ⟨.linespec ⟨.full, some "m".toList⟩, []⟩) ∧
    explicitWF ⟨some "f.c".toList, some "f1".toList, some "lb".toList,
      ⟨7, .plus⟩, .full⟩ = true ∧
    reRender (rendered ⟨.explicitL ⟨some "f.c".toList, some "f1".toList,
      some "lb".toList, ⟨7, .plus⟩, .full⟩, []⟩) .other =
      .ok (rendered ⟨.explicitL ⟨some "f.c".toList, some "f1".toList,
        some "lb".toList, ⟨7, .plus⟩, .full⟩, []⟩) :=
  ⟨by decide,
   (C1_roundtrip .other).1 _ (by decide),
   by decide,
   (C1_roundtrip .other).2.1 10 _ (by decide),
   by decide,
   (C1_roundtrip .other).2.2.1 .full _ (by decide),
   by decide,
   (C1_roundtrip .other).2.2.2 _ (by decide)⟩

end GdbLoc
